import Mathlib

/-!
Verification development for NopeDB, a single-node LSM key-value store.

The definitions below are a shallow embedding of the Rust sources:
  src/slotted_page.rs   (slotted page codec: new, add_cell, encode, decode)
  src/buffer_manager.rs (LRU write-back block cache over a modeled filesystem)
  src/lsm_tree.rs       (LSM table: put accounting, build_index, get, merge)

Rust BTreeMap values are modeled as key-sorted association lists; BTreeMap
insert is btInsert (sorted insert that replaces an existing binding).
Machine integers are modeled as Nat (with explicit mod where the source
wraps); fallible operations (Rust panics via unwrap, slice indexing and
copy_from_slice) are modeled with Except.
-/

set_option maxRecDepth 20000

namespace NopeDB

/-- Model of BTreeMap insert on a key-sorted association list: walk
the list, prepend before the first larger key, replace on an equal key. -/
def btInsert {K A : Type} [LinearOrder K] (k : K) (v : A) :
    List (K × A) → List (K × A)
  | [] => [(k, v)]
  | (k1, v1) :: t =>
    if k < k1 then (k, v) :: (k1, v1) :: t
    else if k = k1 then (k, v) :: t
    else (k1, v1) :: btInsert k v t

/-- Model of BTreeMap lookup: first binding with the requested key. -/
def btLookup {K A : Type} [DecidableEq K] (k : K) : List (K × A) → Option A
  | [] => none
  | (k1, v1) :: t => if k = k1 then some v1 else btLookup k t

/-- Last binding with the requested key, if any. -/
def lastLookup {K A : Type} [DecidableEq K] (k : K) : List (K × A) → Option A
  | [] => none
  | (k1, v1) :: t =>
    match lastLookup k t with
    | some w => some w
    | none => if k = k1 then some v1 else none

/-- Fold a list of bindings into an accumulator map with btInsert,
in list order (models a sequence of BTreeMap inserts). -/
def insFold {K A : Type} [LinearOrder K] (acc : List (K × A)) (l : List (K × A)) :
    List (K × A) :=
  l.foldl (fun a p => btInsert p.1 p.2 a) acc

/-- Keys of an association list are strictly increasing. -/
def KSorted {K A : Type} [LinearOrder K] (l : List (K × A)) : Prop :=
  l.Pairwise (fun p q => p.1 < q.1)

instance {K A : Type} [LinearOrder K] (l : List (K × A)) : Decidable (KSorted l) := by
  unfold KSorted; infer_instance

theorem btLookup_btInsert {K A : Type} [LinearOrder K] (k k1 : K) (v : A)
    (l : List (K × A)) :
    btLookup k (btInsert k1 v l) = if k = k1 then some v else btLookup k l := by
  induction l with
  | nil => simp [btInsert, btLookup]
  | cons h t ih =>
    obtain ⟨k2, v2⟩ := h
    by_cases h1 : k1 < k2
    · simp only [btInsert, if_pos h1]
      by_cases h3 : k = k1 <;> by_cases h4 : k = k2 <;> simp_all [btLookup]
    · by_cases h2 : k1 = k2
      · subst h2
        simp only [btInsert, if_neg h1, if_pos rfl]
        by_cases h3 : k = k1 <;> simp_all [btLookup]
      · simp only [btInsert, if_neg h1, if_neg h2]
        by_cases h3 : k = k2
        · have hk2 : k2 < k1 := lt_of_le_of_ne (not_lt.mp h1) (fun he => h2 he.symm)
          have hne : ¬ k = k1 := fun he => absurd (h3 ▸ he ▸ hk2) (lt_irrefl _)
          simp only [btLookup, hne, h3, if_true, if_false, if_pos rfl, if_neg hne]
          exact (if_neg (ne_of_lt hk2)).symm
        · simp [btLookup, h3, ih]

theorem lastLookup_eq_none {K A : Type} [DecidableEq K] (k : K) (l : List (K × A))
    (h : ∀ p ∈ l, p.1 ≠ k) : lastLookup k l = none := by
  induction l with
  | nil => rfl
  | cons p t ih =>
    obtain ⟨k1, v1⟩ := p
    have hk : k1 ≠ k := h (k1, v1) (by simp)
    have ht : lastLookup k t = none := ih (fun q hq => h q (by simp [hq]))
    simp only [lastLookup, ht]
    exact if_neg (fun he => hk he.symm)

theorem lastLookup_of_mem {K A : Type} [LinearOrder K] (k : K) (v : A)
    (l : List (K × A)) (hs : KSorted l) (hm : (k, v) ∈ l) :
    lastLookup k l = some v := by
  induction l with
  | nil => cases hm
  | cons p t ih =>
    obtain ⟨k1, v1⟩ := p
    rcases List.mem_cons.mp hm with he | ht
    · injection he with hk hv
      subst hk; subst hv
      have hnone : lastLookup k t = none := by
        apply lastLookup_eq_none
        intro q hq
        have := (List.pairwise_cons.mp hs).1 q hq
        exact fun he2 => absurd (he2 ▸ this) (lt_irrefl k)
      simp [lastLookup, hnone]
    · have hst : KSorted t := (List.pairwise_cons.mp hs).2
      simp [lastLookup, ih hst ht]

theorem btLookup_of_mem {K A : Type} [LinearOrder K] (k : K) (v : A)
    (l : List (K × A)) (hs : KSorted l) (hm : (k, v) ∈ l) :
    btLookup k l = some v := by
  induction l with
  | nil => cases hm
  | cons p t ih =>
    obtain ⟨k1, v1⟩ := p
    rcases List.mem_cons.mp hm with he | ht
    · injection he with hk hv
      subst hk; subst hv
      simp [btLookup]
    · have hk1 : k1 < k := (List.pairwise_cons.mp hs).1 (k, v) ht
      have : ¬ k = k1 := fun he2 => absurd (he2 ▸ hk1) (lt_irrefl k)
      simp [btLookup, this, ih (List.pairwise_cons.mp hs).2 ht]

theorem btLookup_insFold {K A : Type} [LinearOrder K] (k : K)
    (l : List (K × A)) (acc : List (K × A)) :
    btLookup k (insFold acc l) =
      match lastLookup k l with
      | some w => some w
      | none => btLookup k acc := by
  induction l generalizing acc with
  | nil => rfl
  | cons p t ih =>
    obtain ⟨k1, v1⟩ := p
    simp only [insFold, List.foldl_cons] at *
    rw [ih (btInsert k1 v1 acc)]
    simp only [lastLookup, btLookup_btInsert]
    cases lastLookup k t with
    | some w => simp
    | none => by_cases h3 : k = k1 <;> simp [h3]

theorem mem_btInsert {K A : Type} [LinearOrder K] (k : K) (v : A)
    (l : List (K × A)) (q : K × A) (hq : q ∈ btInsert k v l) :
    q ∈ l ∨ q = (k, v) := by
  induction l with
  | nil =>
    simp only [btInsert] at hq
    right; simpa using hq
  | cons p t ih =>
    obtain ⟨k1, v1⟩ := p
    simp only [btInsert] at hq
    split_ifs at hq with ha hb
    · rcases List.mem_cons.mp hq with h | h
      · right; exact h
      · left; exact h
    · rcases List.mem_cons.mp hq with h | h
      · right; exact h
      · left; exact List.mem_cons_of_mem _ h
    · rcases List.mem_cons.mp hq with h | h
      · left; exact h ▸ List.mem_cons_self _ _
      · rcases ih h with h2 | h2
        · left; exact List.mem_cons_of_mem _ h2
        · right; exact h2

theorem btLookup_some_mem {K A : Type} [DecidableEq K] (k : K) (w : A)
    (l : List (K × A)) (hw : btLookup k l = some w) : (k, w) ∈ l := by
  induction l with
  | nil => simp [btLookup] at hw
  | cons p t ih =>
    obtain ⟨k1, v1⟩ := p
    by_cases h3 : k = k1
    · simp only [btLookup, if_pos h3] at hw
      subst h3
      injection hw with hww
      exact hww ▸ List.mem_cons_self _ _
    · simp only [btLookup, if_neg h3] at hw
      exact List.mem_cons_of_mem _ (ih hw)

theorem btInsert_sorted {K A : Type} [LinearOrder K] (k : K) (v : A)
    (l : List (K × A)) (hs : KSorted l) : KSorted (btInsert k v l) := by
  induction l with
  | nil => simp [btInsert, KSorted]
  | cons p t ih =>
    obtain ⟨k1, v1⟩ := p
    obtain ⟨hhead, htail⟩ := List.pairwise_cons.mp hs
    by_cases h1 : k < k1
    · simp only [btInsert, if_pos h1]
      refine List.pairwise_cons.mpr ⟨?_, hs⟩
      intro q hq
      rcases List.mem_cons.mp hq with he | hm
      · exact he ▸ h1
      · exact lt_trans h1 (hhead q hm)
    · by_cases h2 : k = k1
      · simp only [btInsert, if_neg h1, if_pos h2]
        exact List.pairwise_cons.mpr ⟨fun q hq => h2 ▸ hhead q hq, htail⟩
      · simp only [btInsert, if_neg h1, if_neg h2]
        refine List.pairwise_cons.mpr ⟨?_, ih htail⟩
        intro q hq
        have hk1 : k1 < k := lt_of_le_of_ne (not_lt.mp h1) (fun he => h2 he.symm)
        rcases mem_btInsert k v t q hq with hm | he
        · exact hhead q hm
        · exact he ▸ hk1

theorem btInsert_append_of_lt {K A : Type} [LinearOrder K] (k : K) (v : A)
    (l : List (K × A)) (h : ∀ p ∈ l, p.1 < k) :
    btInsert k v l = l ++ [(k, v)] := by
  induction l with
  | nil => rfl
  | cons p t ih =>
    obtain ⟨k1, v1⟩ := p
    have hk1 : k1 < k := h (k1, v1) (by simp)
    have h1 : ¬ k < k1 := not_lt.mpr (le_of_lt hk1)
    have h2 : ¬ k = k1 := fun he => absurd (he ▸ hk1) (lt_irrefl _)
    simp only [btInsert, if_neg h1, if_neg h2, List.cons_append, List.cons.injEq,
      true_and]
    exact ih (fun q hq => h q (List.mem_cons_of_mem _ hq))

theorem insFold_self {K A : Type} [LinearOrder K] (acc l : List (K × A))
    (hs : KSorted (acc ++ l)) : insFold acc l = acc ++ l := by
  induction l generalizing acc with
  | nil => simp [insFold]
  | cons p t ih =>
    obtain ⟨k1, v1⟩ := p
    have happ : btInsert k1 v1 acc = acc ++ [(k1, v1)] := by
      apply btInsert_append_of_lt
      intro q hq
      have := List.pairwise_append.mp hs
      exact this.2.2 q hq (k1, v1) (by simp)
    simp only [insFold, List.foldl_cons]
    have := ih (acc ++ [(k1, v1)]) (by simpa using hs)
    simp only [insFold] at this
    rw [happ, this, List.append_assoc]
    simp

theorem btInsert_length_of_mem {K A : Type} [LinearOrder K] (k : K) (v : A)
    (l : List (K × A)) (hs : KSorted l) (hm : ∃ w, btLookup k l = some w) :
    (btInsert k v l).length = l.length := by
  induction l with
  | nil => obtain ⟨w, hw⟩ := hm; simp [btLookup] at hw
  | cons p t ih =>
    obtain ⟨k1, v1⟩ := p
    obtain ⟨w, hw⟩ := hm
    by_cases h2 : k = k1
    · have h1 : ¬ k < k1 := h2 ▸ lt_irrefl k
      simp [btInsert, if_neg h1, if_pos h2]
    · simp only [btLookup, if_neg h2] at hw
      by_cases h1 : k < k1
      · have hkt : (k, w) ∈ t := btLookup_some_mem k w t hw
        have := (List.pairwise_cons.mp hs).1 (k, w) hkt
        exact absurd (lt_trans h1 this) (lt_irrefl _)
      · simp only [btInsert, if_neg h1, if_neg h2, List.length_cons]
        rw [ih (List.pairwise_cons.mp hs).2 ⟨w, hw⟩]

/-- Number of bindings for a given key. -/
def keyCount {K A : Type} [DecidableEq K] (k : K) (l : List (K × A)) : Nat :=
  (l.filter (fun p => p.1 = k)).length

theorem btInsert_keyCount {K A : Type} [LinearOrder K] (k : K) (v : A)
    (l : List (K × A)) (hs : KSorted l) :
    keyCount k (btInsert k v l) = 1 := by
  induction l with
  | nil => simp [btInsert, keyCount]
  | cons p t ih =>
    obtain ⟨k1, v1⟩ := p
    obtain ⟨hhead, htail⟩ := List.pairwise_cons.mp hs
    by_cases h1 : k < k1
    · simp only [btInsert, if_pos h1, keyCount]
      have hne1 : ¬ (k1 = k) := fun he => absurd (he ▸ h1) (lt_irrefl _)
      have hnil : List.filter (fun p => decide (p.1 = k)) t = [] := by
        apply List.filter_eq_nil_iff.mpr
        intro q hq
        have := lt_trans h1 (hhead q hq)
        simp only [decide_eq_true_eq]
        exact fun he => absurd (he ▸ this) (lt_irrefl _)
      simp [List.filter, hne1, hnil]
    · by_cases h2 : k = k1
      · simp only [btInsert, if_neg h1, if_pos h2, keyCount]
        have hnil : List.filter (fun p => decide (p.1 = k)) t = [] := by
          apply List.filter_eq_nil_iff.mpr
          intro q hq
          have := hhead q hq
          simp only [decide_eq_true_eq]
          exact fun he => absurd (h2 ▸ he ▸ this) (lt_irrefl _)
        simp [List.filter, hnil]
      · have hcount := ih htail
        simp only [btInsert, if_neg h1, if_neg h2, keyCount] at *
        have hne1 : ¬ (k1 = k) := fun he => absurd he.symm h2
        simp [List.filter, hne1]
        simpa using hcount

/-! Byte-level helpers. Bytes are Nat values below 256; multi-byte integers
follow bincode v1 defaults: fixed width, little endian. -/

def BLOCK_SIZE : Nat := 4096

/-- bincode serialization of a u16 (2 bytes, little endian). -/
def u16le (n : Nat) : List Nat := [n % 256, n / 256 % 256]

/-- bincode serialization of a u64 or usize (8 bytes, little endian). -/
def u64le (n : Nat) : List Nat :=
  [n % 256, n / 256 % 256, n / 65536 % 256, n / 16777216 % 256,
   n / 4294967296 % 256, n / 1099511627776 % 256,
   n / 281474976710656 % 256, n / 72057594037927936 % 256]

/-- bincode serialization of a nonnegative i16 (2 bytes, little endian);
the page header only ever writes nonnegative widths. -/
def i16le (n : Int) : List Nat := u16le (n % 65536).toNat

/-- bincode deserialization of a u16 from a 2-byte slice. -/
def deU16 (l : List Nat) : Option Nat :=
  match l with
  | [a, b] => some (a + 256 * b)
  | _ => none

/-- bincode deserialization of a u64 from the first 8 bytes of a slice
(bincode ignores trailing bytes). -/
def deU64 (l : List Nat) : Option Nat :=
  match l with
  | b0 :: b1 :: b2 :: b3 :: b4 :: b5 :: b6 :: b7 :: _ =>
    some (b0 + 256 * b1 + 65536 * b2 + 16777216 * b3 + 4294967296 * b4 +
      1099511627776 * b5 + 281474976710656 * b6 + 72057594037927936 * b7)
  | _ => none

/-- Model of Rust slice assignment arr[start..stop].copy_from_slice(src):
errors (panics in Rust) if the range is out of bounds or the source length
differs from the range length. -/
def copySlice (arr : List Nat) (start stop : Nat) (src : List Nat) :
    Except String (List Nat) :=
  if stop ≤ arr.length ∧ start ≤ stop ∧ src.length = stop - start then
    .ok (arr.take start ++ src ++ arr.drop stop)
  else .error "copy slice mismatch"

/-- Model of Rust slice indexing buf[a..b]: errors (panics) when b exceeds
the buffer length or a exceeds b. -/
def sliceE (buf : List Nat) (a b : Nat) : Except String (List Nat) :=
  if b ≤ buf.length ∧ a ≤ b then .ok ((buf.drop a).take (b - a))
  else .error "slice index out of range"

/-! Slotted page model (src/slotted_page.rs). -/

inductive PageType where
  | Variable : PageType
  | Fixed : PageType
deriving DecidableEq, Repr

structure SlottedPage (K V : Type) where
  page_type : PageType
  num_cells : Nat
  cells : List (K × Option V)
  space_left : Nat
deriving DecidableEq

/-- Serialization parameters for the key and value types: the KnowsSize bit
widths (negative marks variable width) and the bincode serializers for K
and V of the concrete instantiation. -/
structure Codec (K V : Type) where
  kbw : Int
  vbw : Int
  serK : K → List Nat
  serV : V → List Nat

/-- bincode serialization of an Option value: one tag byte then the payload. -/
def serOV {K V : Type} (c : Codec K V) : Option V → List Nat
  | none => [0]
  | some x => 1 :: c.serV x

/-- SlottedPage::new: page type from the bit widths (Variable when the key
width or the value width plus option tag is negative), empty cells, and
space_left = BLOCK_SIZE. -/
def SlottedPage.new {K V : Type} (c : Codec K V) : SlottedPage K V :=
  { page_type := if c.vbw + 1 < 0 ∨ c.kbw < 0 then PageType.Variable else PageType.Fixed
    num_cells := 0
    cells := []
    space_left := BLOCK_SIZE }

/-- Byte cost that add_cell charges for one cell: 16 plus the fixed widths
for a Fixed page, or 16 plus the serialized key and option-value lengths
for a Variable page. -/
def cellCost {K V : Type} (c : Codec K V) (pt : PageType) (k : K) (v : Option V) : Nat :=
  match pt with
  | PageType.Fixed => 16 + c.kbw.toNat + (c.vbw + 1).toNat
  | PageType.Variable => 16 + (c.serK k).length + (serOV c v).length

/-- SlottedPage::add_cell: reject (returning the cell) when the cost exceeds
space_left; otherwise increment num_cells, subtract the cost and insert into
the cells map. -/
def add_cell {K V : Type} [LinearOrder K] (c : Codec K V) (s : SlottedPage K V)
    (k : K) (v : Option V) : Except (K × Option V) (SlottedPage K V) :=
  let cost := cellCost c s.page_type k v
  if cost > s.space_left then .error (k, v)
  else .ok { s with num_cells := s.num_cells + 1
                    space_left := s.space_left - cost
                    cells := btInsert k v s.cells }

/-- Offsets and serialized bytes of the cells of a Fixed page, in map order:
the running offset is advanced by the cell length and then pushed. -/
def encCellsFixed {K V : Type} (c : Codec K V) :
    List (K × Option V) → Nat → List Nat × List (List Nat)
  | [], _ => ([], [])
  | kv :: t, off =>
    let s := c.serK kv.1 ++ serOV c kv.2
    let off2 := off + s.length
    let r := encCellsFixed c t off2
    (off2 :: r.1, s :: r.2)

/-- Offsets and serialized bytes of the cells of a Variable page, in map
order. Faithful to the source: the current offset is pushed before being
advanced, and the serialized key length (an 8-byte usize) is written both
before the key and before the value in place of the value length. -/
def encCellsVar {K V : Type} (c : Codec K V) :
    List (K × Option V) → Nat → List Nat × List (List Nat)
  | [], _ => ([], [])
  | kv :: t, off =>
    let sk := c.serK kv.1
    let skl := u64le sk.length
    let sv := serOV c kv.2
    let svl := u64le sk.length
    let cell := skl ++ sk ++ svl ++ sv
    let r := encCellsVar c t (off + cell.length)
    (off :: r.1, cell :: r.2)

/-- Write the 2-byte offset entries at base + 2*i. -/
def writeOffsets (arr : List Nat) (base : Nat) :
    List Nat → Nat → Except String (List Nat)
  | [], _ => .ok arr
  | o :: t, i =>
    match copySlice arr (base + i * 2) (base + i * 2 + 2) (u16le o) with
    | .error e => .error e
    | .ok arr2 => writeOffsets arr2 base t (i + 1)

/-- Write each serialized cell at BLOCK_SIZE minus its offset. -/
def writeCells (arr : List Nat) :
    List Nat → List (List Nat) → Except String (List Nat)
  | _, [] => .ok arr
  | [], _ :: _ => .ok arr
  | o :: ot, v :: vt =>
    let cs := BLOCK_SIZE - o
    match copySlice arr cs (cs + v.length) v with
    | .error e => .error e
    | .ok arr2 => writeCells arr2 ot vt

/-- encode (src/slotted_page.rs): build the header, offset table, and packed
cells into a BLOCK_SIZE byte array. The Variable branch copies the 2-byte
header into final_arr[0..16] exactly as the source does, which always fails
the copy length check (a panic in Rust). -/
def encode {K V : Type} (c : Codec K V) (page : SlottedPage K V) :
    Except String (List Nat) :=
  if page.num_cells > 2 ^ 15 - 1 then .error "more cells than 15 bits"
  else
    match page.page_type with
    | PageType.Fixed =>
      let encoded_header := u16le page.num_cells ++ i16le c.kbw ++ i16le (c.vbw + 1)
      let r := encCellsFixed c page.cells 0
      match copySlice (List.replicate BLOCK_SIZE 0) 0 6 encoded_header with
      | .error e => .error e
      | .ok a1 =>
        match writeOffsets a1 6 r.1 0 with
        | .error e => .error e
        | .ok a2 => writeCells a2 r.1 r.2
    | PageType.Variable =>
      let encoded_header := u16le (Nat.lor 32768 page.num_cells)
      let r := encCellsVar c page.cells 0
      match copySlice (List.replicate BLOCK_SIZE 0) 0 16 encoded_header with
      | .error e => .error e
      | .ok a1 =>
        match writeOffsets a1 2 r.1 0 with
        | .error e => .error e
        | .ok a2 => writeCells a2 r.1 r.2

/-- Deserializers for the concrete key and value instantiation used when
decoding a page: dek parses a key slice, dev parses an option-value slice. -/
structure Decoders (K V : Type) where
  dek : List Nat → Option K
  dev : List Nat → Option (Option V)

/-- One iteration of the Fixed decode loop for cell index i: read the
2-byte offset at 6 + 2*i, slice the key and value at BLOCK_SIZE - offset,
insert the cell, increment num_cells again and shrink space_left. -/
def decodeFixedStep {K V : Type} [LinearOrder K] (d : Decoders K V)
    (buf : List Nat) (key_size val_size : Nat) (s : SlottedPage K V) (i : Nat) :
    Except String (SlottedPage K V) := do
  let ob ← sliceE buf (6 + i * 2) (6 + i * 2 + 2)
  let some off := deU16 ob | .error "deserialize offset"
  let key_start := BLOCK_SIZE - off
  let key_end := key_start + key_size
  let kb ← sliceE buf key_start key_end
  let some key := d.dek kb | .error "deserialize key"
  let vb ← sliceE buf key_end (key_end + val_size)
  let some val := d.dev vb | .error "deserialize value"
  pure { s with cells := btInsert key val s.cells
                num_cells := s.num_cells + 1
                space_left := s.space_left - 2 - key_size - val_size }

/-- One iteration of the Variable decode loop for cell index i, faithful to
the source: the key size is sliced from BLOCK_SIZE - offset up to
offset + 2, an asymmetry with the encoder. -/
def decodeVarStep {K V : Type} [LinearOrder K] (d : Decoders K V)
    (buf : List Nat) (s : SlottedPage K V) (i : Nat) :
    Except String (SlottedPage K V) := do
  let ob ← sliceE buf (2 + i * 2) (2 + i * 2 + 2)
  let some off := deU16 ob | .error "deserialize offset"
  let key_size_start := BLOCK_SIZE - off
  let key_size_end := off + 2
  let ksb ← sliceE buf key_size_start key_size_end
  let some key_size := deU16 ksb | .error "deserialize key size"
  let key_start := key_size_end
  let key_end := key_start + key_size
  let kb ← sliceE buf key_start key_end
  let some key := d.dek kb | .error "deserialize key"
  let vsb ← sliceE buf key_end (key_end + 2)
  let some val_size := deU16 vsb | .error "deserialize value size"
  let vb ← sliceE buf (key_end + 2) (key_end + 2 + val_size)
  let some val := d.dev vb | .error "deserialize value"
  pure { s with cells := btInsert key val s.cells
                num_cells := s.num_cells + 1
                space_left := s.space_left - 2 - key_size - val_size }

/-- decode (src/slotted_page.rs): read the packed header, then loop over the
header cell count. The loop bound is the cell count read from the header,
while each iteration also increments s.num_cells, which therefore ends at
twice the header value. -/
def decode {K V : Type} [LinearOrder K] (d : Decoders K V) (buf : List Nat) :
    Except String (SlottedPage K V) := do
  let hb ← sliceE buf 0 2
  let some packed_header := deU16 hb | .error "deserialize header"
  let page_type := Nat.land packed_header 32768
  let num_cells := Nat.land packed_header 32767
  if page_type > 0 then
    let s0 : SlottedPage K V :=
      { page_type := PageType.Variable, num_cells := num_cells
        cells := [], space_left := 4094 }
    (List.range num_cells).foldlM (decodeVarStep d buf) s0
  else
    let s0 : SlottedPage K V :=
      { page_type := PageType.Fixed, num_cells := num_cells
        cells := [], space_left := 4090 }
    let ksb ← sliceE buf 2 4
    let some key_size := deU16 ksb | .error "deserialize key size"
    let vsb ← sliceE buf 4 6
    let some val_size := deU16 vsb | .error "deserialize value size"
    (List.range num_cells).foldlM (decodeFixedStep d buf key_size val_size) s0

/-! Concrete instantiations used by the claims: u64 keys and values
(bincode: 8 bytes little endian), and String keys and values modeled as
byte lists (bincode: 8-byte length then the bytes). -/

/-- Codec for the u64 to u64 instantiation (KnowsSize bit_width 8 for u64). -/
def codecU64 : Codec Nat Nat :=
  { kbw := 8, vbw := 8, serK := u64le, serV := u64le }

/-- Decoders for the u64 to u64 instantiation. -/
def decodersU64 : Decoders Nat Nat :=
  { dek := deU64
    dev := fun l =>
      match l with
      | 0 :: _ => some none
      | 1 :: rest => (deU64 rest).map some
      | _ => none }

/-- Codec for the String to String instantiation (bit_width -1; a string is
modeled as its UTF-8 byte list). -/
def codecStr : Codec (List Nat) (List Nat) :=
  { kbw := -1, vbw := -1
    serK := fun s => u64le s.length ++ s
    serV := fun s => u64le s.length ++ s }

instance {e a : Type} [DecidableEq e] [DecidableEq a] : DecidableEq (Except e a) := fun x y =>
  match x, y with
  | .ok u, .ok w =>
    if h : u = w then isTrue (by rw [h])
    else isFalse (by intro he; injection he; contradiction)
  | .error u, .error w =>
    if h : u = w then isTrue (by rw [h])
    else isFalse (by intro he; injection he; contradiction)
  | .ok _, .error _ => isFalse (by intro he; cases he)
  | .error _, .ok _ => isFalse (by intro he; cases he)

/-- The page obtained from SlottedPage::new by one successful
add_cell(1, Some 10) at type u64 to u64. -/
def pageOneU64 : SlottedPage Nat Nat :=
  { page_type := PageType.Fixed, num_cells := 1, cells := [(1, some 10)],
    space_left := 4063 }

/-- Serialized cell bytes of pageOneU64: key 1 then Some 10. -/
def cellOneU64 : List Nat := u64le 1 ++ serOV codecU64 (some 10)

/-- The block bytes produced by encode on pageOneU64: 6-byte header,
one offset entry 17, zero fill, and the packed cell at the block end. -/
def encBytesOne : List Nat :=
  [1, 0, 8, 0, 9, 0, 17, 0] ++ (List.replicate 4071 0 ++ cellOneU64)

/-- The variable page obtained from SlottedPage::new by one successful
add_cell at type String to String (bytes of "a" and "bc"). -/
def pageVarOne : SlottedPage (List Nat) (List Nat) :=
  { page_type := PageType.Variable, num_cells := 1,
    cells := [([97], some [98, 99])], space_left := 4060 }

theorem ebind_ok {e a b : Type} (x : a) (f : a → Except e b) :
    (Except.ok x : Except e a) >>= f = f x := rfl

theorem ebind_err {e a b : Type} (m : e) (f : a → Except e b) :
    (Except.error m : Except e a) >>= f = Except.error m := rfl

theorem sliceE_ok (buf : List Nat) (a b : Nat) (h1 : b ≤ buf.length) (h2 : a ≤ b) :
    sliceE buf a b = .ok ((buf.drop a).take (b - a)) := by
  simp [sliceE, h1, h2]

theorem copySlice_ok (arr : List Nat) (start stop : Nat) (src : List Nat)
    (h1 : stop ≤ arr.length) (h2 : start ≤ stop) (h3 : src.length = stop - start) :
    copySlice arr start stop src = .ok (arr.take start ++ src ++ arr.drop stop) := by
  simp [copySlice, h1, h2, h3]

theorem take_concat {A : Type} (xs ys : List A) (n m : Nat) (h : n = xs.length + m) :
    (xs ++ ys).take n = xs ++ ys.take m := by
  subst h; exact List.take_append m

theorem drop_concat {A : Type} (xs ys : List A) (n m : Nat) (h : n = xs.length + m) :
    (xs ++ ys).drop n = ys.drop m := by
  subst h; exact List.drop_append m

theorem add_cell_pageOne :
    add_cell codecU64 (SlottedPage.new codecU64) 1 (some 10) = .ok pageOneU64 := by
  decide

theorem encode_pageOne : encode codecU64 pageOneU64 = .ok encBytesOne := by
  have hhdr : u16le pageOneU64.num_cells ++ i16le codecU64.kbw ++
      i16le (codecU64.vbw + 1) = [1, 0, 8, 0, 9, 0] := rfl
  have hcells : encCellsFixed codecU64 pageOneU64.cells 0 = ([17], [cellOneU64]) := rfl
  have hc1 : copySlice (List.replicate BLOCK_SIZE 0) 0 6 [1, 0, 8, 0, 9, 0] =
      .ok ([1, 0, 8, 0, 9, 0] ++ List.replicate 4090 0) := by
    rw [copySlice_ok _ _ _ _ (by rw [List.length_replicate]; norm_num [BLOCK_SIZE])
      (by norm_num) (by norm_num)]
    rw [List.take_zero, List.drop_replicate]
    norm_num [BLOCK_SIZE]
  have hw1 : writeOffsets ([1, 0, 8, 0, 9, 0] ++ List.replicate 4090 0) 6 [17] 0 =
      .ok ([1, 0, 8, 0, 9, 0, 17, 0] ++ List.replicate 4088 0) := by
    rw [writeOffsets.eq_def]
    have hstep : copySlice ([1, 0, 8, 0, 9, 0] ++ List.replicate 4090 0) (6 + 0 * 2)
        (6 + 0 * 2 + 2) (u16le 17) =
        .ok ([1, 0, 8, 0, 9, 0, 17, 0] ++ List.replicate 4088 0) := by
      rw [copySlice_ok _ _ _ _
        (by rw [List.length_append, List.length_replicate]; norm_num)
        (by norm_num) (by norm_num [u16le])]
      rw [take_concat ([1, 0, 8, 0, 9, 0]) _ (6 + 0 * 2) 0 (by norm_num),
        drop_concat ([1, 0, 8, 0, 9, 0]) _ (6 + 0 * 2 + 2) 2 (by norm_num),
        List.take_zero, List.drop_replicate]
      norm_num [u16le]
    simp only [hstep]
    rw [writeOffsets.eq_def]
  have hw2 : writeCells ([1, 0, 8, 0, 9, 0, 17, 0] ++ List.replicate 4088 0) [17]
      [cellOneU64] = .ok encBytesOne := by
    rw [writeCells.eq_def]
    have hcl : cellOneU64.length = 17 := rfl
    have hstep : copySlice ([1, 0, 8, 0, 9, 0, 17, 0] ++ List.replicate 4088 0)
        (BLOCK_SIZE - 17) (BLOCK_SIZE - 17 + cellOneU64.length) cellOneU64 =
        .ok encBytesOne := by
      rw [copySlice_ok _ _ _ _
        (by rw [List.length_append, List.length_replicate]; norm_num [BLOCK_SIZE, hcl])
        (by norm_num) (by norm_num [hcl])]
      rw [take_concat ([1, 0, 8, 0, 9, 0, 17, 0]) _ (BLOCK_SIZE - 17) 4071
          (by norm_num [BLOCK_SIZE]),
        drop_concat ([1, 0, 8, 0, 9, 0, 17, 0]) _ (BLOCK_SIZE - 17 + cellOneU64.length)
          4088 (by norm_num [BLOCK_SIZE, hcl]),
        List.take_replicate, List.drop_replicate]
      norm_num [encBytesOne]
    simp only [hstep]
    rw [writeCells.eq_def]
  rw [encode]
  rw [if_neg (by norm_num [pageOneU64] : ¬ pageOneU64.num_cells > 2 ^ 15 - 1)]
  rw [show pageOneU64.page_type = PageType.Fixed from rfl]
  simp only []
  rw [hhdr, hcells]
  simp only [hc1]
  simp only [hw1]
  simp only [hw2]

theorem decode_encBytesOne :
    decode decodersU64 encBytesOne =
      .ok { page_type := PageType.Fixed, num_cells := 2, cells := [(1, some 10)],
            space_left := 4071 } := by
  have hcl : cellOneU64.length = 17 := rfl
  have hlen : encBytesOne.length = 4096 := by
    rw [encBytesOne, List.length_append, List.length_append, List.length_replicate, hcl]
    decide
  have hs0 : sliceE encBytesOne 0 2 = .ok [1, 0] := by
    rw [sliceE_ok _ _ _ (by rw [hlen]; try norm_num) (by norm_num)]; rfl
  have hs1 : sliceE encBytesOne 2 4 = .ok [8, 0] := by
    rw [sliceE_ok _ _ _ (by rw [hlen]; try norm_num) (by norm_num)]; rfl
  have hs2 : sliceE encBytesOne 4 6 = .ok [9, 0] := by
    rw [sliceE_ok _ _ _ (by rw [hlen]; try norm_num) (by norm_num)]; rfl
  have hs3 : sliceE encBytesOne 6 8 = .ok [17, 0] := by
    rw [sliceE_ok _ _ _ (by rw [hlen]; try norm_num) (by norm_num)]; rfl
  have hs4 : sliceE encBytesOne 4079 4087 = .ok (u64le 1) := by
    rw [sliceE_ok _ _ _ (by rw [hlen]; try norm_num) (by norm_num)]
    have hd : encBytesOne.drop 4079 = cellOneU64 := by
      rw [show encBytesOne = ([1, 0, 8, 0, 9, 0, 17, 0] ++ List.replicate 4071 0) ++
        cellOneU64 from by rw [encBytesOne]; rw [List.append_assoc]]
      rw [drop_concat _ _ 4079 0
        (by rw [List.length_append, List.length_replicate]; decide)]
      exact List.drop_zero _
    rw [hd]
    rfl
  have hs5 : sliceE encBytesOne 4087 4096 = .ok (serOV codecU64 (some 10)) := by
    rw [sliceE_ok _ _ _ (by rw [hlen]; try norm_num) (by norm_num)]
    have hd : encBytesOne.drop 4087 = serOV codecU64 (some 10) := by
      rw [show encBytesOne = (([1, 0, 8, 0, 9, 0, 17, 0] ++ List.replicate 4071 0) ++
        u64le 1) ++ serOV codecU64 (some 10) from by
          rw [encBytesOne, cellOneU64]; simp only [List.append_assoc]]
      rw [drop_concat _ _ 4087 0
        (by rw [List.length_append, List.length_append, List.length_replicate]; decide)]
      exact List.drop_zero _
    rw [hd]
    rfl
  rw [decode]
  simp only [hs0, ebind_ok]
  simp only [show deU16 [1, 0] = some 1 from rfl]
  simp only [show Nat.land 1 32768 = 0 from rfl, show Nat.land 1 32767 = 1 from rfl]
  rw [if_neg (by norm_num)]
  simp only [hs1, ebind_ok, show deU16 [8, 0] = some 8 from rfl]
  simp only [hs2, ebind_ok, show deU16 [9, 0] = some 9 from rfl]
  simp only [show List.range 1 = [0] from rfl, List.foldlM]
  simp only [decodeFixedStep, hs3, ebind_ok]
  simp only [show deU16 [17, 0] = some 17 from rfl]
  simp only [show BLOCK_SIZE - 17 = 4079 from rfl]
  simp only [show (4079 : Nat) + 8 = 4087 from rfl]
  simp only [hs4, ebind_ok]
  simp only [show decodersU64.dek (u64le 1) = some 1 from rfl]
  simp only [show (4087 : Nat) + 9 = 4096 from rfl]
  simp only [hs5, ebind_ok]
  simp only [show decodersU64.dev (serOV codecU64 (some 10)) = some (some 10) from rfl]
  rfl

theorem add_cell_pageVarOne :
    add_cell codecStr (SlottedPage.new codecStr) [97] (some [98, 99]) =
      .ok pageVarOne := by
  decide

theorem encode_pageVarOne_panics :
    encode codecStr pageVarOne = .error "copy slice mismatch" := by
  have hcs : copySlice (List.replicate BLOCK_SIZE 0) 0 16
      (u16le (Nat.lor 32768 pageVarOne.num_cells)) = .error "copy slice mismatch" := by
    have hno : ¬ (16 ≤ (List.replicate BLOCK_SIZE (0:Nat)).length ∧ 0 ≤ 16 ∧
        (u16le (Nat.lor 32768 pageVarOne.num_cells)).length = 16 - 0) := by
      intro h
      have h22 := h.2.2
      rw [show (u16le (Nat.lor 32768 pageVarOne.num_cells)).length = 2 from rfl] at h22
      norm_num at h22
    simp only [copySlice]
    rw [if_neg hno]
  rw [encode]
  rw [if_neg (by norm_num [pageVarOne] : ¬ pageVarOne.num_cells > 2 ^ 15 - 1)]
  rw [show pageVarOne.page_type = PageType.Variable from rfl]
  simp only []
  simp only [hcs]

/-! Buffer manager model (src/buffer_manager.rs). The filesystem is an
association list from file name to byte contents; opening with O_CREAT
appends an empty file when absent. -/

structure Block where
  bytes : List Nat
  key : String × Nat
  dirty_bit : Bool
deriving DecidableEq

structure BufferManager where
  num_blocks : Nat
  blocks : List Block
deriving DecidableEq

/-- Modeled filesystem: file name to contents. -/
abbrev FS : Type := List (String × List Nat)

/-- Contents of a file, if it exists. -/
def fsFind (fs : FS) (f : String) : Option (List Nat) :=
  match fs with
  | [] => none
  | (g, c) :: t => if g = f then some c else fsFind t f

/-- Replace the contents of an existing file. -/
def fsSet (fs : FS) (f : String) (c : List Nat) : FS :=
  match fs with
  | [] => []
  | (g, c0) :: t => if g = f then (g, c) :: t else (g, c0) :: fsSet t f c

/-- Open with create: appends an empty file when the name is absent. -/
def fsOpenCreate (fs : FS) (f : String) : FS :=
  match fsFind fs f with
  | some _ => fs
  | none => fs ++ [(f, [])]

/-- Positional write at a byte offset, zero-extending past end of file. -/
def writeAtBytes (content : List Nat) (off : Nat) (b : List Nat) : List Nat :=
  (content.take off ++ List.replicate (off - content.length) 0) ++ b ++
    content.drop (off + b.length)

/-- BufferManager::renew: remove the block at the index and push it to
the front (most recently used). -/
def renewList (l : List Block) (i : Nat) : List Block :=
  match l.get? i with
  | some x => x :: l.eraseIdx i
  | none => l

/-- BufferManager::add: when the pool is full, pop the least recently used
block, writing it back first when dirty (opening without create, so a
missing file is a panic); then push the new block to the front. -/
def bmAdd (bm : BufferManager) (fs : FS) (b : Block) :
    Except String (BufferManager × FS) :=
  if bm.blocks.length = bm.num_blocks then
    match bm.blocks.getLast? with
    | none => .error "pop back unwrap on empty pool"
    | some back =>
      let rest := bm.blocks.dropLast
      if back.dirty_bit then
        match fsFind fs back.key.1 with
        | none => .error "open without create failed"
        | some content =>
          let off := back.key.2
          let block_offset := off - off % BLOCK_SIZE
          let fs2 := fsSet fs back.key.1 (writeAtBytes content block_offset back.bytes)
          .ok (⟨bm.num_blocks, b :: rest⟩, fs2)
      else .ok (⟨bm.num_blocks, b :: rest⟩, fs)
  else .ok (⟨bm.num_blocks, b :: bm.blocks⟩, fs)

/-- BufferManager::get: align the offset down; on a resident hit, promote
the block to the front and return it; on a miss, open the file with create,
return none when the aligned block reaches past end of file, else read the
block from disk and insert it at the front. -/
def BufferManager.get (bm : BufferManager) (fs : FS) (file : String) (offset : Nat) :
    Except String (Option Block × BufferManager × FS) :=
  let block_offset := offset - offset % BLOCK_SIZE
  match bm.blocks.findIdx? (fun x => decide (x.key = (file, block_offset))) with
  | some i =>
    match (renewList bm.blocks i).head? with
    | none => .error "index zero out of bounds"
    | some b0 => .ok (some b0, ⟨bm.num_blocks, renewList bm.blocks i⟩, fs)
  | none =>
    let fs1 := fsOpenCreate fs file
    match fsFind fs1 file with
    | none => .error "open with create failed"
    | some content =>
      if block_offset + BLOCK_SIZE > content.length then .ok (none, bm, fs1)
      else
        let buf := (content.drop block_offset).take BLOCK_SIZE
        let nb : Block := ⟨buf, (file, block_offset), false⟩
        match bmAdd bm fs1 nb with
        | .error e => .error e
        | .ok (bm2, fs2) => .ok (some nb, bm2, fs2)

/-- BufferManager::write: align down, call get to fault the block in, then
look the block up again; on a hit overwrite the byte range in the block and
set the dirty bit; otherwise open with create only when the aligned offset
is 0, then insert a new dirty block whose bytes are exactly buf. -/
def BufferManager.write (bm : BufferManager) (fs : FS) (file : String)
    (offset : Nat) (buf : List Nat) (buf_size : Nat) :
    Except String (BufferManager × FS) :=
  let block_offset := offset - offset % BLOCK_SIZE
  match BufferManager.get bm fs file block_offset with
  | .error e => .error e
  | .ok (_, bm1, fs1) =>
    match bm1.blocks.findIdx? (fun x => decide (x.key = (file, block_offset))) with
    | some i =>
      match bm1.blocks.get? i with
      | none => .error "index out of bounds"
      | some blk =>
        let in_block_offset := offset % BLOCK_SIZE
        match copySlice blk.bytes in_block_offset (in_block_offset + buf_size) buf with
        | .error e => .error e
        | .ok bytes2 =>
          .ok (⟨bm1.num_blocks,
            bm1.blocks.set i { blk with bytes := bytes2, dirty_bit := true }⟩, fs1)
    | none =>
      let fs2 := if block_offset = 0 then fsOpenCreate fs1 file else fs1
      let nb : Block := ⟨buf, (file, block_offset), true⟩
      match bmAdd bm1 fs2 nb with
      | .error e => .error e
      | .ok (bm2, fs3) => .ok (bm2, fs3)

/-- Aligned block offset, as computed throughout the buffer manager. -/
def alignDown (offset : Nat) : Nat := offset - offset % BLOCK_SIZE

/-- Position of the resident block with the given identity, if any. -/
def residentIdx (bm : BufferManager) (file : String) (bo : Nat) : Option Nat :=
  bm.blocks.findIdx? (fun x => decide (x.key = (file, bo)))

/-- On-disk length of the file after the open-with-create in get. -/
def fileLenAfterOpen (fs : FS) (file : String) : Nat :=
  ((fsFind (fsOpenCreate fs file) file).getD []).length

theorem fsFind_append_self (fs : FS) (f : String) (hn : fsFind fs f = none) :
    fsFind (fs ++ [(f, [])]) f = some [] := by
  induction fs with
  | nil => simp [fsFind]
  | cons p t ih =>
    obtain ⟨g, c⟩ := p
    by_cases hg : g = f
    · simp [fsFind, hg] at hn
    · simp only [fsFind, hg, if_neg hg, List.cons_append] at *
      exact ih hn

theorem fsFind_openCreate_self (fs : FS) (f : String) :
    fsFind (fsOpenCreate fs f) f = some ((fsFind fs f).getD []) := by
  unfold fsOpenCreate
  cases hf : fsFind fs f with
  | some c => simp [hf]
  | none => simp [fsFind_append_self fs f hf]

theorem fsFind_isSome_fsSet (fs : FS) (f g : String) (c : List Nat)
    (h : fsFind fs f ≠ none) : fsFind (fsSet fs g c) f ≠ none := by
  induction fs with
  | nil => simp [fsFind] at h
  | cons p t ih =>
    obtain ⟨g1, c1⟩ := p
    by_cases hg : g1 = g
    · by_cases hf : g1 = f <;> simp_all [fsFind, fsSet]
    · by_cases hf : g1 = f <;> simp_all [fsFind, fsSet]

theorem bmAdd_ok_blocks (bm : BufferManager) (fs : FS) (b : Block)
    (bm2 : BufferManager) (fs2 : FS) (h : bmAdd bm fs b = .ok (bm2, fs2)) :
    (∃ rest, bm2.blocks = b :: rest) ∧ bm2.num_blocks = bm.num_blocks := by
  unfold bmAdd at h
  split at h
  · split at h
    · cases h
    · split at h
      · split at h
        · cases h
        · injection h with h1
          injection h1 with h2 h3
          subst h2
          exact ⟨⟨_, rfl⟩, rfl⟩
      · injection h with h1
        injection h1 with h2 h3
        subst h2
        exact ⟨⟨_, rfl⟩, rfl⟩
  · injection h with h1
    injection h1 with h2 h3
    subst h2
    exact ⟨⟨_, rfl⟩, rfl⟩

theorem bmAdd_ok_fs (bm : BufferManager) (fs : FS) (b : Block)
    (bm2 : BufferManager) (fs2 : FS) (f : String) (h : bmAdd bm fs b = .ok (bm2, fs2))
    (hf : fsFind fs f ≠ none) : fsFind fs2 f ≠ none := by
  unfold bmAdd at h
  split at h
  · split at h
    · cases h
    · split at h
      · split at h
        · cases h
        · injection h with h1
          injection h1 with h2 h3
          subst h3
          exact fsFind_isSome_fsSet fs f _ _ hf
      · injection h with h1
        injection h1 with h2 h3
        subst h3
        exact hf
  · injection h with h1
    injection h1 with h2 h3
    subst h3
    exact hf

theorem findIdx?_some_get {A : Type} (p : A → Bool) (l : List A) (i : Nat)
    (h : l.findIdx? p = some i) : ∃ b, l.get? i = some b ∧ p b = true := by
  induction l generalizing i with
  | nil => simp at h
  | cons x xs ih =>
    rw [List.findIdx?_cons] at h
    by_cases hp : p x
    · rw [if_pos hp] at h
      injection h with hi
      exact ⟨x, by rw [← hi]; rfl, hp⟩
    · rw [if_neg hp, List.findIdx?_succ] at h
      cases hfind : xs.findIdx? p with
      | none => rw [hfind] at h; cases h
      | some j =>
        rw [hfind] at h
        injection h with hi
        obtain ⟨b, hb, hpb⟩ := ih j hfind
        exact ⟨b, by rw [← hi]; exact hb, hpb⟩

theorem renewList_head (l : List Block) (i : Nat) (b : Block)
    (h : l.get? i = some b) : renewList l i = b :: l.eraseIdx i := by
  unfold renewList
  rw [h]

/-- The block read from disk by a get miss within the file length. -/
def readBlockOf (fs : FS) (file : String) (offset : Nat) : Block :=
  ⟨(((fsFind (fsOpenCreate fs file) file).getD []).drop (alignDown offset)).take
    BLOCK_SIZE, (file, alignDown offset), false⟩

theorem get_none_iff (bm : BufferManager) (fs : FS) (file : String) (offset : Nat) :
    (∃ bm2 fs2, BufferManager.get bm fs file offset = .ok (none, bm2, fs2)) ↔
      (residentIdx bm file (alignDown offset) = none ∧
        alignDown offset + BLOCK_SIZE > fileLenAfterOpen fs file) := by
  constructor
  · rintro ⟨bm2, fs2, hget⟩
    unfold BufferManager.get at hget
    dsimp only [] at hget
    split at hget
    · rename_i i hidx
      split at hget
      · cases hget
      · injection hget with h1
        injection h1 with ho _
        cases ho
    · rename_i hidx
      split at hget
      · cases hget
      · rename_i content hfind
        split at hget
        · rename_i hpast
          refine ⟨by simpa [residentIdx, alignDown] using hidx, ?_⟩
          have : fileLenAfterOpen fs file = content.length := by
            unfold fileLenAfterOpen
            rw [hfind]
            rfl
          rw [this]
          simpa [alignDown] using hpast
        · split at hget
          · cases hget
          · injection hget with h1
            injection h1 with ho _
            cases ho
  · rintro ⟨hidx, hpast⟩
    refine ⟨bm, fsOpenCreate fs file, ?_⟩
    unfold BufferManager.get
    dsimp only []
    rw [show bm.blocks.findIdx?
        (fun x => decide (x.key = (file, offset - offset % BLOCK_SIZE))) = none from by
      simpa [residentIdx, alignDown] using hidx]
    rw [fsFind_openCreate_self fs file]
    dsimp only []
    rw [if_pos (by
      have hlen : fileLenAfterOpen fs file =
          ((fsFind fs file).getD []).length := by
        unfold fileLenAfterOpen
        rw [fsFind_openCreate_self fs file]
        rfl
      rw [hlen] at hpast
      simpa [alignDown] using hpast)]

theorem get_hit (bm : BufferManager) (fs : FS) (file : String) (offset : Nat)
    (i : Nat) (hidx : residentIdx bm file (alignDown offset) = some i) :
    ∃ b, bm.blocks.get? i = some b ∧
      BufferManager.get bm fs file offset =
        .ok (some b, ⟨bm.num_blocks, b :: bm.blocks.eraseIdx i⟩, fs) := by
  have hidx2 : bm.blocks.findIdx?
      (fun x => decide (x.key = (file, offset - offset % BLOCK_SIZE))) = some i := by
    simpa [residentIdx, alignDown] using hidx
  obtain ⟨b, hb, hpb⟩ := findIdx?_some_get _ _ _ hidx2
  refine ⟨b, hb, ?_⟩
  unfold BufferManager.get
  dsimp only []
  rw [hidx2]
  dsimp only []
  rw [renewList_head _ _ _ hb]
  rfl

theorem get_miss_read (bm : BufferManager) (fs : FS) (file : String) (offset : Nat)
    (hidx : residentIdx bm file (alignDown offset) = none)
    (hin : alignDown offset + BLOCK_SIZE ≤ fileLenAfterOpen fs file)
    (ob : Option Block) (bm2 : BufferManager) (fs2 : FS)
    (hget : BufferManager.get bm fs file offset = .ok (ob, bm2, fs2)) :
    ob = some (readBlockOf fs file offset) ∧
      bm2.blocks.head? = some (readBlockOf fs file offset) ∧
      bm2.num_blocks = bm.num_blocks := by
  have hidx2 : bm.blocks.findIdx?
      (fun x => decide (x.key = (file, offset - offset % BLOCK_SIZE))) = none := by
    simpa [residentIdx, alignDown] using hidx
  unfold BufferManager.get at hget
  dsimp only [] at hget
  rw [hidx2, fsFind_openCreate_self fs file] at hget
  dsimp only [] at hget
  rw [if_neg (by
    have hlen : fileLenAfterOpen fs file = ((fsFind fs file).getD []).length := by
      unfold fileLenAfterOpen
      rw [fsFind_openCreate_self fs file]
      rfl
    rw [hlen] at hin
    simp only [gt_iff_lt, not_lt]
    simpa [alignDown] using hin)] at hget
  split at hget
  · cases hget
  · rename_i bm3 fs3 hadd
    injection hget with h1
    injection h1 with ho h2
    injection h2 with h3 h4
    obtain ⟨⟨rest, hrest⟩, hnum⟩ := bmAdd_ok_blocks _ _ _ _ _ hadd
    subst h3
    refine ⟨?_, ?_, hnum⟩
    · rw [← ho]
      unfold readBlockOf alignDown
      rw [fsFind_openCreate_self fs file]
      simp only [Option.getD_some]
    · rw [hrest]
      unfold readBlockOf alignDown
      rw [fsFind_openCreate_self fs file]
      simp only [Option.getD_some, List.head?_cons]

theorem alignDown_idem (o : Nat) : alignDown (alignDown o) = alignDown o := by
  unfold alignDown
  have h := Nat.div_add_mod o BLOCK_SIZE
  have h2 : o - o % BLOCK_SIZE = BLOCK_SIZE * (o / BLOCK_SIZE) := by omega
  rw [h2, Nat.mul_mod_right]
  omega

theorem get_miss_past_eq (bm : BufferManager) (fs : FS) (file : String) (offset : Nat)
    (hidx : residentIdx bm file (alignDown offset) = none)
    (hpast : alignDown offset + BLOCK_SIZE > fileLenAfterOpen fs file) :
    BufferManager.get bm fs file offset = .ok (none, bm, fsOpenCreate fs file) := by
  unfold BufferManager.get
  dsimp only []
  rw [show bm.blocks.findIdx?
      (fun x => decide (x.key = (file, offset - offset % BLOCK_SIZE))) = none from by
    simpa [residentIdx, alignDown] using hidx]
  rw [fsFind_openCreate_self fs file]
  dsimp only []
  rw [if_pos (by
    have hlen : fileLenAfterOpen fs file = ((fsFind fs file).getD []).length := by
      unfold fileLenAfterOpen
      rw [fsFind_openCreate_self fs file]
      rfl
    rw [hlen] at hpast
    simpa [alignDown] using hpast)]

theorem write_miss_past (bm : BufferManager) (fs : FS) (file : String)
    (offset : Nat) (buf : List Nat) (bs : Nat) (bm2 : BufferManager) (fs2 : FS)
    (hidx : residentIdx bm file (alignDown offset) = none)
    (hpast : alignDown offset + BLOCK_SIZE > fileLenAfterOpen fs file)
    (hok : BufferManager.write bm fs file offset buf bs = .ok (bm2, fs2)) :
    (∃ rest, bm2.blocks = Block.mk buf (file, alignDown offset) true :: rest) ∧
      fsFind fs2 file ≠ none ∧ bm2.num_blocks = bm.num_blocks := by
  have hidx0 : residentIdx bm file (alignDown (offset - offset % BLOCK_SIZE)) = none := by
    rw [show alignDown (offset - offset % BLOCK_SIZE) = alignDown offset from
      alignDown_idem offset]
    exact hidx
  have hpast0 : alignDown (offset - offset % BLOCK_SIZE) + BLOCK_SIZE >
      fileLenAfterOpen fs file := by
    rw [show alignDown (offset - offset % BLOCK_SIZE) = alignDown offset from
      alignDown_idem offset]
    exact hpast
  have hget := get_miss_past_eq bm fs file (offset - offset % BLOCK_SIZE) hidx0 hpast0
  unfold BufferManager.write at hok
  dsimp only [] at hok
  rw [hget] at hok
  dsimp only [] at hok
  rw [show bm.blocks.findIdx?
      (fun x => decide (x.key = (file, offset - offset % BLOCK_SIZE))) = none from by
    simpa [residentIdx, alignDown] using hidx] at hok
  dsimp only [] at hok
  have hopen : fsFind (fsOpenCreate fs file) file ≠ none := by
    rw [fsFind_openCreate_self fs file]
    intro hcon
    cases hcon
  have hopen2 : fsFind (if offset - offset % BLOCK_SIZE = 0 then
      fsOpenCreate (fsOpenCreate fs file) file else fsOpenCreate fs file) file ≠ none := by
    by_cases hz : offset - offset % BLOCK_SIZE = 0
    · rw [if_pos hz, fsFind_openCreate_self (fsOpenCreate fs file) file]
      intro hcon
      cases hcon
    · rw [if_neg hz]
      exact hopen
  split at hok
  · cases hok
  · rename_i bm3 fs3 hadd
    injection hok with h1
    injection h1 with h3 h4
    obtain ⟨⟨rest, hrest⟩, hnum⟩ := bmAdd_ok_blocks _ _ _ _ _ hadd
    have hfs := bmAdd_ok_fs _ _ _ _ _ file hadd hopen2
    subst h3
    refine ⟨⟨rest, by rw [hrest]; unfold alignDown; rfl⟩, ?_, hnum⟩
    rw [← h4]
    exact hfs

/-! LSM tree model (src/lsm_tree.rs). The on-disk run is modeled as the
list of decoded pages (each a key-sorted cell list); the page at index i
lives at byte offset i * BLOCK_SIZE. The serialized sizes of keys and
values are abstract parameters ks and vs, matching the generic
bincode::serialize calls of the source. -/

/-- One put (lines 49 to 64 of lsm_tree.rs, without the merge trigger):
serialize key and value, insert into the memtable, subtract the serialized
size of the previous value when one existed, then add both new sizes. -/
def putStep {K V : Type} [LinearOrder K] (ks : K → Nat) (vs : Option V → Nat)
    (st : List (K × Option V) × Nat) (k : K) (v : Option V) :
    List (K × Option V) × Nat :=
  let key_size := ks k
  let val_size := vs v
  let res := btLookup k st.1
  let mt2 := btInsert k v st.1
  let size2 :=
    match res with
    | none => st.2
    | some old => st.2 - vs old
  (mt2, size2 + key_size + val_size)

/-- A sequence of puts against a fresh table (empty memtable, size 0). -/
def runPuts {K V : Type} [LinearOrder K] (ks : K → Nat) (vs : Option V → Nat)
    (l : List (K × Option V)) : List (K × Option V) × Nat :=
  l.foldl (fun st kv => putStep ks vs st kv.1 kv.2) ([], 0)

/-- Sum of serialized key plus value sizes over the memtable entries. -/
def sumEntries {K V : Type} (ks : K → Nat) (vs : Option V → Nat)
    (l : List (K × Option V)) : Nat :=
  (l.map (fun p => ks p.1 + vs p.2)).sum

/-- Extra bytes that the puts leak: the serialized key size of every put
that overwrote an existing memtable key. -/
def overHead {K V : Type} [LinearOrder K] (ks : K → Nat)
    (mt : List (K × Option V)) : List (K × Option V) → Nat
  | [] => 0
  | (k, v) :: t =>
    (match btLookup k mt with
     | some _ => ks k
     | none => 0) + overHead ks (btInsert k v mt) t

/-- build_index (lines 72 to 82): walk the run pages from offset 0,
inserting (first key of page, offset) for each page; stop at the first
page that decodes with no cells. The index is not cleared first. -/
def buildIndexLoop {K V : Type} [LinearOrder K] (idx : List (K × Nat)) :
    List (List (K × Option V)) → Nat → List (K × Nat)
  | [], _ => idx
  | p :: ps, offset =>
    match p with
    | [] => idx
    | (k, _) :: _ => buildIndexLoop (btInsert k offset idx) ps (offset + BLOCK_SIZE)

/-- build_index starting at offset 0. -/
def build_index {K V : Type} [LinearOrder K] (idx : List (K × Nat))
    (pages : List (List (K × Option V))) : List (K × Nat) :=
  buildIndexLoop idx pages 0

/-- Greatest index entry with key at most k: the BTreeMap cursor
upper_bound(Included k) followed by prev. -/
def idxPrev {K : Type} [LinearOrder K] (idx : List (K × Nat)) (k : K) :
    Option (K × Nat) :=
  (idx.filter (fun p => decide (p.1 ≤ k))).getLast?

/-- manager.get on the run file: none exactly when the aligned offset
reaches past the end of the run (the run holds pages.length blocks). -/
def pageAt {K V : Type} (pages : List (List (K × Option V))) (offset : Nat) :
    Option (List (K × Option V)) :=
  let a := offset - offset % BLOCK_SIZE
  if a + BLOCK_SIZE > BLOCK_SIZE * pages.length then none
  else pages.get? (a / BLOCK_SIZE)

/-- LSMTree::get (lines 84 to 105): memtable first; else position a cursor
at the greatest index key at most k and unwrap it (a panic when no such
entry exists); fetch and decode the page; tombstones and absent keys both
come back as none. -/
def lsmGet {K V : Type} [LinearOrder K] (memtable : List (K × Option V))
    (idx : List (K × Nat)) (pages : List (List (K × Option V))) (k : K) :
    Except String (Option V) :=
  match btLookup k memtable with
  | some x => .ok x
  | none =>
    match idxPrev idx k with
    | none => .error "called Option.unwrap on a None value"
    | some (_, block_offset) =>
      match pageAt pages block_offset with
      | none => .ok none
      | some cells =>
        match btLookup k cells with
        | some (some x) => .ok (some x)
        | some none => .ok none
        | none => .ok none

/-- get_next_disk (lines 128 to 160): advance the current page iterator;
on exhaustion load the page at the next offset, modeled as the head of the
remaining page list; a loaded page with no cells ends the stream. -/
def getNextDisk {K V : Type} (it : Option (List (K × Option V)))
    (ps : List (List (K × Option V))) :
    Option ((K × Option V) × List (K × Option V) × List (List (K × Option V))) :=
  match it with
  | some (x :: rest) => some (x, rest, ps)
  | some [] =>
    match ps with
    | [] => none
    | p :: ps2 =>
      match p with
      | [] => none
      | x :: rest => some (x, rest, ps2)
  | none =>
    match ps with
    | [] => none
    | p :: ps2 =>
      match p with
      | [] => none
      | x :: rest => some (x, rest, ps2)

/-- Cells that successive get_next_disk calls yield from a page list:
pages concatenated up to the first empty page. -/
def flattenPages {K V : Type} : List (List (K × Option V)) → List (K × Option V)
  | [] => []
  | [] :: _ => []
  | (x :: r) :: ps => (x :: r) ++ flattenPages ps

/-- Total number of cells in a page list. -/
def pagesTotal {K V : Type} (ps : List (List (K × Option V))) : Nat :=
  (ps.map List.length).sum

/-- The inner loop of merge that drains the disk side once the memtable
iterator is exhausted (lines 240 to 250): insert the current disk cell and
advance until the disk side ends. -/
def diskDrain {K V : Type} [LinearOrder K] (cd : K × Option V)
    (it : List (K × Option V)) (ps : List (List (K × Option V)))
    (acc : List (K × Option V)) : List (K × Option V) :=
  let acc2 := btInsert cd.1 cd.2 acc
  match h : getNextDisk (some it) ps with
  | none => acc2
  | some (d, i, ps2) => diskDrain d i ps2 acc2
termination_by it.length + pagesTotal ps
decreasing_by
  unfold getNextDisk at h
  cases it with
  | nil =>
    cases ps with
    | nil => simp at h
    | cons p ps3 =>
      cases p with
      | nil => simp at h
      | cons x r =>
        simp at h
        obtain ⟨h1, h2, h3⟩ := h
        subst h2; subst h3
        simp [pagesTotal]
        all_goals omega
  | cons x r =>
    simp at h
    obtain ⟨h1, h2, h3⟩ := h
    subst h2; subst h3
    simp
    all_goals omega

theorem gndMeasure {K V : Type} (it : List (K × Option V))
    (ps : List (List (K × Option V))) (d : K × Option V)
    (i : List (K × Option V)) (ps2 : List (List (K × Option V)))
    (h : getNextDisk (some it) ps = some (d, i, ps2)) :
    i.length + pagesTotal ps2 < it.length + pagesTotal ps := by
  unfold getNextDisk at h
  cases it with
  | nil =>
    cases ps with
    | nil => simp at h
    | cons p ps3 =>
      cases p with
      | nil => simp at h
      | cons x r =>
        simp at h
        obtain ⟨h1, h2, h3⟩ := h
        subst h2; subst h3
        simp [pagesTotal]
        all_goals omega
  | cons x r =>
    simp at h
    obtain ⟨h1, h2, h3⟩ := h
    subst h2; subst h3
    simp
    all_goals omega

/-- The inner loop of merge that drains the memtable side once the disk
iterator is exhausted (lines 261 to 267): insert the current memtable cell
and advance until the memtable iterator ends. -/
def memDrain {K V : Type} [LinearOrder K] (cm : K × Option V)
    (ms : List (K × Option V)) (acc : List (K × Option V)) :
    List (K × Option V) :=
  let acc2 := btInsert cm.1 cm.2 acc
  match ms with
  | [] => acc2
  | m :: ms2 => memDrain m ms2 acc2

mutual

/-- The outer merge loop (lines 227 to 287). fm and fd are the fetch_mem
and fetch_disk flags; cm and ms the current memtable cell and remaining
iterator; cd, it and ps the current disk cell, page remainder and
remaining pages; acc the merged BTreeMap. Each iteration refreshes the
sides whose flag is set, draining the other side on exhaustion, then
compares and inserts. -/
def mergeLoop {K V : Type} [LinearOrder K] (fm fd : Bool) (cm : K × Option V)
    (ms : List (K × Option V)) (cd : K × Option V) (it : List (K × Option V))
    (ps : List (List (K × Option V))) (acc : List (K × Option V)) :
    List (K × Option V) :=
  if fm then
    match ms with
    | [] =>
      if fd then
        match getNextDisk (some it) ps with
        | none => acc
        | some (d, i, ps2) => diskDrain d i ps2 acc
      else diskDrain cd it ps acc
    | m :: ms2 =>
      if fd then
        match h : getNextDisk (some it) ps with
        | none => memDrain m ms2 acc
        | some (d, i, ps2) => mergeCmp m ms2 d i ps2 acc
      else mergeCmp m ms2 cd it ps acc
  else
    if fd then
      match h : getNextDisk (some it) ps with
      | none => memDrain cm ms acc
      | some (d, i, ps2) => mergeCmp cm ms d i ps2 acc
    else mergeCmp cm ms cd it ps acc
termination_by
  4 * (ms.length + it.length + pagesTotal ps) +
    (if fm then 0 else if fd then 0 else 2)
decreasing_by
  all_goals
    first
    | (have hm := gndMeasure _ _ _ _ _ h
       try simp only [List.length_cons]
       omega)
    | (simp_all [pagesTotal] <;> omega)
    | omega

/-- The comparison step of the merge loop (lines 271 to 286): equal keys
emit the memtable entry and set both flags; a smaller memtable key emits
it and sets only fetch_mem; otherwise the disk entry is emitted and
fetch_disk set. -/
def mergeCmp {K V : Type} [LinearOrder K] (cm : K × Option V)
    (ms : List (K × Option V)) (cd : K × Option V) (it : List (K × Option V))
    (ps : List (List (K × Option V))) (acc : List (K × Option V)) :
    List (K × Option V) :=
  if cm.1 = cd.1 then
    mergeLoop true true cm ms cd it ps (btInsert cm.1 cm.2 acc)
  else if cm.1 < cd.1 then
    mergeLoop true false cm ms cd it ps (btInsert cm.1 cm.2 acc)
  else
    mergeLoop false true cm ms cd it ps (btInsert cd.1 cd.2 acc)
termination_by 4 * (ms.length + it.length + pagesTotal ps) + 1
decreasing_by
  all_goals simp_all [pagesTotal] <;> omega

end

/-- Reference two-way sorted merge with memtable priority on equal keys,
used to characterize the merge loop. -/
def stdMerge {K V : Type} [LinearOrder K] :
    List (K × Option V) → List (K × Option V) → List (K × Option V)
  | [], d => d
  | m :: ms, [] => m :: ms
  | m :: ms, d :: ds =>
    if m.1 = d.1 then m :: stdMerge ms ds
    else if m.1 < d.1 then m :: stdMerge ms (d :: ds)
    else d :: stdMerge (m :: ms) ds
termination_by l1 l2 => l1.length + l2.length

/-- LSMTree::merge (lines 200 to 293), producing merged_btree: snapshot
the memtable, position the disk cursor at offset 0; when the run is empty
write the memtable back; otherwise unwrap the first memtable entry (a
panic when the memtable is empty) and run the merge loop with both fetch
flags clear. -/
def mergeModel {K V : Type} [LinearOrder K] (mem : List (K × Option V))
    (pages : List (List (K × Option V))) :
    Except String (List (K × Option V)) :=
  match getNextDisk none pages with
  | none => .ok mem
  | some (cd, it, ps) =>
    match mem with
    | [] => .error "called Option.unwrap on a None value"
    | cm :: ms => .ok (mergeLoop false false cm ms cd it ps [])

/-- The page-packing loop of write_btreemap_to_disk (lines 162 to 192):
add cells to the current page until one is rejected, then emit the page,
start a fresh one and re-add the rejected cell, which is a panic when it
is rejected again; a final non-empty page is emitted at the end. -/
def packLoop {K V : Type} [LinearOrder K] (c : Codec K V) (curr : SlottedPage K V)
    (acc : List (List (K × Option V))) :
    List (K × Option V) → Except String (List (List (K × Option V)))
  | [] => if curr.num_cells > 0 then .ok (acc ++ [curr.cells]) else .ok acc
  | (k, v) :: t =>
    match add_cell c curr k v with
    | .ok curr2 => packLoop c curr2 acc t
    | .error (k2, v2) =>
      let acc2 := acc ++ [curr.cells]
      match add_cell c (SlottedPage.new c) k2 v2 with
      | .ok curr2 => packLoop c curr2 acc2 t
      | .error _ => .error "add cell rejected twice"

/-- write_btreemap_to_disk viewed as the list of pages it writes. -/
def packPages {K V : Type} [LinearOrder K] (c : Codec K V)
    (l : List (K × Option V)) : Except String (List (List (K × Option V))) :=
  packLoop c (SlottedPage.new c) [] l

theorem gnd_none {K V : Type} (it : List (K × Option V))
    (ps : List (List (K × Option V))) (h : getNextDisk (some it) ps = none) :
    it ++ flattenPages ps = [] := by
  unfold getNextDisk at h
  cases it with
  | cons x r => simp at h
  | nil =>
    cases ps with
    | nil => simp [flattenPages]
    | cons p ps2 =>
      cases p with
      | nil => simp [flattenPages]
      | cons x r => simp at h

theorem gnd_some {K V : Type} (it : List (K × Option V))
    (ps : List (List (K × Option V))) (d : K × Option V)
    (i : List (K × Option V)) (ps2 : List (List (K × Option V)))
    (h : getNextDisk (some it) ps = some (d, i, ps2)) :
    it ++ flattenPages ps = d :: (i ++ flattenPages ps2) := by
  unfold getNextDisk at h
  cases it with
  | cons x r =>
    simp at h
    obtain ⟨h1, h2, h3⟩ := h
    subst h1; subst h2; subst h3
    simp
  | nil =>
    cases ps with
    | nil => simp at h
    | cons p ps3 =>
      cases p with
      | nil => simp at h
      | cons x r =>
        simp at h
        obtain ⟨h1, h2, h3⟩ := h
        subst h1; subst h2; subst h3
        simp [flattenPages]

theorem gnd_init_none {K V : Type} (ps : List (List (K × Option V)))
    (h : getNextDisk none ps = none) : flattenPages ps = [] := by
  unfold getNextDisk at h
  cases ps with
  | nil => simp [flattenPages]
  | cons p ps2 =>
    cases p with
    | nil => simp [flattenPages]
    | cons x r => simp at h

theorem gnd_init_some {K V : Type} (ps : List (List (K × Option V)))
    (d : K × Option V) (i : List (K × Option V)) (ps2 : List (List (K × Option V)))
    (h : getNextDisk none ps = some (d, i, ps2)) :
    flattenPages ps = d :: (i ++ flattenPages ps2) := by
  unfold getNextDisk at h
  cases ps with
  | nil => simp at h
  | cons p ps3 =>
    cases p with
    | nil => simp at h
    | cons x r =>
      simp at h
      obtain ⟨h1, h2, h3⟩ := h
      subst h1; subst h2; subst h3
      simp [flattenPages]

theorem memDrain_spec {K V : Type} [LinearOrder K] (cm : K × Option V)
    (ms : List (K × Option V)) (acc : List (K × Option V)) :
    memDrain cm ms acc = insFold acc (cm :: ms) := by
  induction ms generalizing cm acc with
  | nil => simp [memDrain, insFold]
  | cons m ms2 ih =>
    rw [memDrain]
    rw [ih]
    simp [insFold]

theorem diskDrain_spec {K V : Type} [LinearOrder K] (cd : K × Option V)
    (it : List (K × Option V)) (ps : List (List (K × Option V)))
    (acc : List (K × Option V)) :
    diskDrain cd it ps acc = insFold acc (cd :: (it ++ flattenPages ps)) := by
  have H : ∀ n : Nat, ∀ (cd : K × Option V) (it : List (K × Option V))
      (ps : List (List (K × Option V))) (acc : List (K × Option V)),
      it.length + pagesTotal ps = n →
      diskDrain cd it ps acc = insFold acc (cd :: (it ++ flattenPages ps)) := by
    intro n
    induction n using Nat.strong_induction_on with
    | _ n ih =>
      intro cd it ps acc hn
      rw [diskDrain]
      cases hg : getNextDisk (some it) ps with
      | none =>
        rw [gnd_none it ps hg]
        simp [insFold]
      | some x =>
        obtain ⟨d, i, ps2⟩ := x
        rw [gnd_some it ps d i ps2 hg]
        dsimp only []
        have hlt := gndMeasure it ps d i ps2 hg
        rw [ih (i.length + pagesTotal ps2) (by omega) d i ps2 _ rfl]
        simp [insFold]
  exact H (it.length + pagesTotal ps) cd it ps acc rfl

theorem stdMerge_nil_left {K V : Type} [LinearOrder K]
    (d : List (K × Option V)) : stdMerge [] d = d := by
  rw [stdMerge]

theorem stdMerge_nil_right {K V : Type} [LinearOrder K] (m : K × Option V)
    (ms : List (K × Option V)) : stdMerge (m :: ms) [] = m :: ms := by
  rw [stdMerge]

theorem stdMerge_cons_cons {K V : Type} [LinearOrder K] (m : K × Option V)
    (ms : List (K × Option V)) (d : K × Option V) (ds : List (K × Option V)) :
    stdMerge (m :: ms) (d :: ds) =
      if m.1 = d.1 then m :: stdMerge ms ds
      else if m.1 < d.1 then m :: stdMerge ms (d :: ds)
      else d :: stdMerge (m :: ms) ds := by
  rw [stdMerge]

theorem insFold_nil {K A : Type} [LinearOrder K] (acc : List (K × A)) :
    insFold acc [] = acc := rfl

theorem insFold_cons {K A : Type} [LinearOrder K] (acc : List (K × A))
    (p : K × A) (l : List (K × A)) :
    insFold acc (p :: l) = insFold (btInsert p.1 p.2 acc) l := rfl

theorem mergeLoop_spec {K V : Type} [LinearOrder K] (cm : K × Option V)
    (ms : List (K × Option V)) (cd : K × Option V) (it : List (K × Option V))
    (ps : List (List (K × Option V))) (acc : List (K × Option V)) (fm fd : Bool) :
    mergeLoop fm fd cm ms cd it ps acc =
      insFold acc (stdMerge (if fm then ms else cm :: ms)
        (if fd then it ++ flattenPages ps else cd :: (it ++ flattenPages ps))) := by
  have H : ∀ n : Nat, ∀ (cm : K × Option V) (ms : List (K × Option V))
      (cd : K × Option V) (it : List (K × Option V))
      (ps : List (List (K × Option V))),
      ms.length + it.length + pagesTotal ps = n →
      (∀ (acc : List (K × Option V)) (fm fd : Bool), fm = true ∨ fd = true →
        mergeLoop fm fd cm ms cd it ps acc =
          insFold acc (stdMerge (if fm then ms else cm :: ms)
            (if fd then it ++ flattenPages ps else cd :: (it ++ flattenPages ps)))) ∧
      (∀ acc : List (K × Option V),
        mergeCmp cm ms cd it ps acc =
          insFold acc (stdMerge (cm :: ms) (cd :: (it ++ flattenPages ps)))) := by
    intro n
    induction n using Nat.strong_induction_on with
    | _ n ih =>
      intro cm ms cd it ps hn
      have A : ∀ (acc : List (K × Option V)) (fm fd : Bool),
          fm = true ∨ fd = true →
          mergeLoop fm fd cm ms cd it ps acc =
            insFold acc (stdMerge (if fm then ms else cm :: ms)
              (if fd then it ++ flattenPages ps else
                cd :: (it ++ flattenPages ps))) := by
        intro acc fm fd hor
        rw [mergeLoop.eq_def]
        cases fm with
        | true =>
          cases ms with
          | nil =>
            cases fd with
            | true =>
              cases hg : getNextDisk (some it) ps with
              | none =>
                simp [hg, gnd_none it ps hg, stdMerge_nil_left, insFold_nil]
              | some x =>
                obtain ⟨d, i, ps2⟩ := x
                simp [hg, diskDrain_spec, gnd_some it ps d i ps2 hg,
                  stdMerge_nil_left]
            | false =>
              simp [diskDrain_spec, stdMerge_nil_left]
          | cons m ms2 =>
            simp only [List.length_cons] at hn
            cases fd with
            | true =>
              cases hg : getNextDisk (some it) ps with
              | none =>
                simp [hg, memDrain_spec, gnd_none it ps hg, stdMerge_nil_right]
              | some x =>
                obtain ⟨d, i, ps2⟩ := x
                have hlt := gndMeasure it ps d i ps2 hg
                have ihc := (ih (ms2.length + i.length + pagesTotal ps2)
                  (by omega) m ms2 d i ps2 rfl).2 acc
                rw [gnd_some it ps d i ps2 hg]
                simp only [hg]
                simp [ihc]
            | false =>
              have ihc := (ih (ms2.length + it.length + pagesTotal ps)
                (by omega) m ms2 cd it ps rfl).2 acc
              simp [ihc]
        | false =>
          cases fd with
          | false =>
            rcases hor with hh | hh <;> cases hh
          | true =>
            cases hg : getNextDisk (some it) ps with
            | none =>
              simp [hg, memDrain_spec, gnd_none it ps hg, stdMerge_nil_right]
            | some x =>
              obtain ⟨d, i, ps2⟩ := x
              have hlt := gndMeasure it ps d i ps2 hg
              have ihc := (ih (ms.length + i.length + pagesTotal ps2)
                (by omega) cm ms d i ps2 rfl).2 acc
              rw [gnd_some it ps d i ps2 hg]
              simp only [hg]
              simp [ihc]
      refine ⟨A, ?_⟩
      intro acc
      rw [mergeCmp]
      by_cases hc1 : cm.1 = cd.1
      · rw [if_pos hc1, A (btInsert cm.1 cm.2 acc) true true (Or.inl rfl)]
        rw [stdMerge_cons_cons, if_pos hc1]
        simp [insFold_cons]
      · by_cases hc2 : cm.1 < cd.1
        · rw [if_neg hc1, if_pos hc2,
            A (btInsert cm.1 cm.2 acc) true false (Or.inl rfl)]
          rw [stdMerge_cons_cons, if_neg hc1, if_pos hc2]
          simp [insFold_cons]
        · rw [if_neg hc1, if_neg hc2,
            A (btInsert cd.1 cd.2 acc) false true (Or.inr rfl)]
          rw [stdMerge_cons_cons, if_neg hc1, if_neg hc2]
          simp [insFold_cons]
  cases fm with
  | true =>
    exact (H (ms.length + it.length + pagesTotal ps) cm ms cd it ps rfl).1
      acc true fd (Or.inl rfl)
  | false =>
    cases fd with
    | true =>
      exact (H (ms.length + it.length + pagesTotal ps) cm ms cd it ps rfl).1
        acc false true (Or.inr rfl)
    | false =>
      rw [mergeLoop.eq_def]
      simp only [Bool.false_eq_true, if_false]
      exact (H (ms.length + it.length + pagesTotal ps) cm ms cd it ps rfl).2 acc

theorem mem_stdMerge {K V : Type} [LinearOrder K] :
    ∀ (M D : List (K × Option V)) (x : K × Option V),
      x ∈ stdMerge M D → x ∈ M ∨ x ∈ D := by
  have H : ∀ n : Nat, ∀ (M D : List (K × Option V)) (x : K × Option V),
      M.length + D.length = n → x ∈ stdMerge M D → x ∈ M ∨ x ∈ D := by
    intro n
    induction n using Nat.strong_induction_on with
    | _ n ih =>
      intro M D x hn hx
      cases M with
      | nil =>
        rw [stdMerge_nil_left] at hx
        right
        exact hx
      | cons m ms =>
        cases D with
        | nil =>
          rw [stdMerge_nil_right] at hx
          left
          exact hx
        | cons d ds =>
          simp only [List.length_cons] at hn
          rw [stdMerge_cons_cons] at hx
          split_ifs at hx with hc1 hc2
          · rcases List.mem_cons.mp hx with he | ht
            · left; exact he ▸ List.mem_cons_self _ _
            · rcases ih (ms.length + ds.length) (by omega) ms ds x rfl ht with h | h
              · left; exact List.mem_cons_of_mem _ h
              · right; exact List.mem_cons_of_mem _ h
          · rcases List.mem_cons.mp hx with he | ht
            · left; exact he ▸ List.mem_cons_self _ _
            · rcases ih (ms.length + (d :: ds).length) (by simp; omega) ms (d :: ds)
                x (by simp) ht with h | h
              · left; exact List.mem_cons_of_mem _ h
              · right; exact h
          · rcases List.mem_cons.mp hx with he | ht
            · right; exact he ▸ List.mem_cons_self _ _
            · rcases ih ((m :: ms).length + ds.length) (by simp; omega) (m :: ms) ds
                x (by simp) ht with h | h
              · left; exact h
              · right; exact List.mem_cons_of_mem _ h
  exact fun M D x => H (M.length + D.length) M D x rfl

theorem stdMerge_sorted {K V : Type} [LinearOrder K] :
    ∀ (M D : List (K × Option V)), KSorted M → KSorted D →
      KSorted (stdMerge M D) := by
  have H : ∀ n : Nat, ∀ (M D : List (K × Option V)),
      M.length + D.length = n → KSorted M → KSorted D →
      KSorted (stdMerge M D) := by
    intro n
    induction n using Nat.strong_induction_on with
    | _ n ih =>
      intro M D hn hm hd
      cases M with
      | nil => rw [stdMerge_nil_left]; exact hd
      | cons m ms =>
        cases D with
        | nil => rw [stdMerge_nil_right]; exact hm
        | cons d ds =>
          simp only [List.length_cons] at hn
          obtain ⟨hmh, hmt⟩ := List.pairwise_cons.mp hm
          obtain ⟨hdh, hdt⟩ := List.pairwise_cons.mp hd
          rw [stdMerge_cons_cons]
          split_ifs with hc1 hc2
          · refine List.pairwise_cons.mpr ⟨?_, ih (ms.length + ds.length)
              (by omega) ms ds rfl hmt hdt⟩
            intro y hy
            rcases mem_stdMerge ms ds y hy with h | h
            · exact hmh y h
            · exact hc1 ▸ hdh y h
          · refine List.pairwise_cons.mpr ⟨?_, ih (ms.length + (d :: ds).length)
              (by simp; omega) ms (d :: ds) (by simp) hmt hd⟩
            intro y hy
            rcases mem_stdMerge ms (d :: ds) y hy with h | h
            · exact hmh y h
            · rcases List.mem_cons.mp h with he | ht
              · exact he ▸ hc2
              · exact lt_trans hc2 (hdh y ht)
          · have hdm : d.1 < m.1 :=
              lt_of_le_of_ne (not_lt.mp hc2) (fun he => hc1 he.symm)
            refine List.pairwise_cons.mpr ⟨?_, ih ((m :: ms).length + ds.length)
              (by simp; omega) (m :: ms) ds (by simp) hm hdt⟩
            intro y hy
            rcases mem_stdMerge (m :: ms) ds y hy with h | h
            · rcases List.mem_cons.mp h with he | ht
              · exact he ▸ hdm
              · exact lt_trans hdm (hmh y ht)
            · exact hdh y h
  exact fun M D => H (M.length + D.length) M D rfl

theorem stdMerge_lookup_mem {K V : Type} [LinearOrder K] :
    ∀ (M D : List (K × Option V)) (k : K) (v : Option V),
      btLookup k M = some v → (k, v) ∈ stdMerge M D := by
  have H : ∀ n : Nat, ∀ (M D : List (K × Option V)) (k : K) (v : Option V),
      M.length + D.length = n → btLookup k M = some v →
      (k, v) ∈ stdMerge M D := by
    intro n
    induction n using Nat.strong_induction_on with
    | _ n ih =>
      intro M D k v hn hk
      cases M with
      | nil => simp [btLookup] at hk
      | cons m ms =>
        obtain ⟨mk, mv⟩ := m
        cases D with
        | nil =>
          rw [stdMerge_nil_right]
          exact btLookup_some_mem k v _ hk
        | cons d ds =>
          simp only [List.length_cons] at hn
          rw [stdMerge_cons_cons]
          by_cases hkm : k = mk
          · subst hkm
            simp only [btLookup, if_pos rfl] at hk
            injection hk with hv
            subst hv
            split_ifs with hc1 hc2
            · exact List.mem_cons_self _ _
            · exact List.mem_cons_self _ _
            · refine List.mem_cons_of_mem _
                (ih (((k, mv) :: ms).length + ds.length) (by simp; omega)
                  ((k, mv) :: ms) ds k mv (by simp) ?_)
              simp [btLookup]
          · simp only [btLookup, if_neg hkm] at hk
            split_ifs with hc1 hc2
            · exact List.mem_cons_of_mem _
                (ih (ms.length + ds.length) (by omega) ms ds k v rfl hk)
            · exact List.mem_cons_of_mem _
                (ih (ms.length + (d :: ds).length) (by simp; omega) ms (d :: ds)
                  k v (by simp) hk)
            · refine List.mem_cons_of_mem _
                (ih (((mk, mv) :: ms).length + ds.length) (by simp; omega)
                  ((mk, mv) :: ms) ds k v (by simp) ?_)
              simp [btLookup, if_neg hkm]
              exact hk
  exact fun M D k v => H (M.length + D.length) M D k v rfl

theorem add_cell_ok {K V : Type} [LinearOrder K] (c : Codec K V)
    (s : SlottedPage K V) (k : K) (v : Option V)
    (h : cellCost c s.page_type k v ≤ s.space_left) :
    add_cell c s k v = .ok
      { s with num_cells := s.num_cells + 1
               space_left := s.space_left - cellCost c s.page_type k v
               cells := btInsert k v s.cells } := by
  unfold add_cell
  rw [if_neg (by omega)]

theorem add_cell_err {K V : Type} [LinearOrder K] (c : Codec K V)
    (s : SlottedPage K V) (k : K) (v : Option V)
    (h : cellCost c s.page_type k v > s.space_left) :
    add_cell c s k v = .error (k, v) := by
  unfold add_cell
  rw [if_pos h]

theorem add_cell_ok_shape {K V : Type} [LinearOrder K] (c : Codec K V)
    (s s2 : SlottedPage K V) (k : K) (v : Option V)
    (h : add_cell c s k v = .ok s2) :
    s2 = { s with num_cells := s.num_cells + 1
                  space_left := s.space_left - cellCost c s.page_type k v
                  cells := btInsert k v s.cells } := by
  unfold add_cell at h
  dsimp only [] at h
  split at h
  · cases h
  · injection h with h1
    exact h1.symm

theorem add_cell_err_shape {K V : Type} [LinearOrder K] (c : Codec K V)
    (s : SlottedPage K V) (k k2 : K) (v v2 : Option V)
    (h : add_cell c s k v = .error (k2, v2)) : k2 = k ∧ v2 = v := by
  unfold add_cell at h
  dsimp only [] at h
  split at h
  · injection h with h1
    injection h1 with h2 h3
    exact ⟨h2.symm, h3.symm⟩
  · cases h

theorem packLoop_join {K V : Type} [LinearOrder K] (c : Codec K V) :
    ∀ (l : List (K × Option V)) (curr : SlottedPage K V)
      (acc out : List (List (K × Option V))),
      KSorted (curr.cells ++ l) →
      curr.num_cells = curr.cells.length →
      packLoop c curr acc l = .ok out →
      out.join = acc.join ++ curr.cells ++ l := by
  intro l
  induction l with
  | nil =>
    intro curr acc out hs hnc hp
    rw [packLoop] at hp
    split_ifs at hp with hpos
    · injection hp with h1
      rw [← h1]
      simp
    · have : curr.cells = [] := by
        rw [hnc] at hpos
        cases hc : curr.cells with
        | nil => rfl
        | cons a b => rw [hc] at hpos; simp at hpos
      injection hp with h1
      rw [← h1, this]
      simp
  | cons kv t ih =>
    obtain ⟨k, v⟩ := kv
    intro curr acc out hs hnc hp
    rw [packLoop] at hp
    cases hadd : add_cell c curr k v with
    | ok curr2 =>
      rw [hadd] at hp
      dsimp only [] at hp
      have hshape := add_cell_ok_shape c curr curr2 k v hadd
      have happ : btInsert k v curr.cells = curr.cells ++ [(k, v)] := by
        apply btInsert_append_of_lt
        intro q hq
        exact (List.pairwise_append.mp hs).2.2 q hq (k, v) (by simp)
      have hs2 : KSorted (curr2.cells ++ t) := by
        rw [hshape]
        simp only []
        rw [happ]
        have : curr.cells ++ [(k, v)] ++ t = curr.cells ++ ((k, v) :: t) := by
          simp
        rw [this]
        exact hs
      have hnc2 : curr2.num_cells = curr2.cells.length := by
        rw [hshape]
        simp only []
        rw [happ]
        simp [hnc]
      have := ih curr2 acc out hs2 hnc2 hp
      rw [this, hshape]
      simp only []
      rw [happ]
      simp
    | error kv2 =>
      obtain ⟨k2, v2⟩ := kv2
      rw [hadd] at hp
      dsimp only [] at hp
      obtain ⟨hk2, hv2⟩ := add_cell_err_shape c curr k k2 v v2 hadd
      rw [hk2, hv2] at hp
      cases hadd2 : add_cell c (SlottedPage.new c) k v with
      | error kv3 =>
        rw [hadd2] at hp
        cases hp
      | ok curr2 =>
        rw [hadd2] at hp
        dsimp only [] at hp
        have hshape := add_cell_ok_shape c (SlottedPage.new c) curr2 k v hadd2
        have hcells2 : curr2.cells = [(k, v)] := by
          rw [hshape]
          rfl
        have hs2 : KSorted (curr2.cells ++ t) := by
          rw [hcells2]
          have hsub : List.Sublist ((k, v) :: t) (curr.cells ++ (k, v) :: t) :=
            List.sublist_append_right _ _
          exact List.Pairwise.sublist hsub hs
        have hnc2 : curr2.num_cells = curr2.cells.length := by
          rw [hshape]
          rfl
        have := ih curr2 (acc ++ [curr.cells]) out hs2 hnc2 hp
        rw [this, hcells2]
        simp

/-- The (first key, offset) pairs build_index inserts, one per page up to
the first empty page. -/
def pageMins {K V : Type} : List (List (K × Option V)) → Nat → List (K × Nat)
  | [], _ => []
  | p :: ps, off =>
    match p with
    | [] => []
    | (k, _) :: _ => (k, off) :: pageMins ps (off + BLOCK_SIZE)

theorem buildIndexLoop_spec {K V : Type} [LinearOrder K] :
    ∀ (pages : List (List (K × Option V))) (idx : List (K × Nat)) (off : Nat),
      buildIndexLoop idx pages off = insFold idx (pageMins pages off) := by
  intro pages
  induction pages with
  | nil => intro idx off; rfl
  | cons p ps ih =>
    intro idx off
    cases p with
    | nil => rfl
    | cons kv rest =>
      obtain ⟨k, v⟩ := kv
      rw [buildIndexLoop, ih]
      rfl

theorem sumEntries_btInsert_none {K V : Type} [LinearOrder K] (ks : K → Nat)
    (vs : Option V → Nat) (k : K) (v : Option V) (mt : List (K × Option V))
    (h : btLookup k mt = none) :
    sumEntries ks vs (btInsert k v mt) = sumEntries ks vs mt + ks k + vs v := by
  induction mt with
  | nil => simp [btInsert, sumEntries]
  | cons p t ih =>
    obtain ⟨k1, v1⟩ := p
    by_cases h2 : k = k1
    · simp [btLookup, h2] at h
    · simp only [btLookup, if_neg h2] at h
      by_cases h1 : k < k1
      · simp [btInsert, if_pos h1, sumEntries]
        omega
      · simp only [btInsert, if_neg h1, if_neg h2]
        simp only [sumEntries, List.map_cons, List.sum_cons] at *
        rw [ih h]
        omega

theorem sumEntries_btInsert_some {K V : Type} [LinearOrder K] (ks : K → Nat)
    (vs : Option V → Nat) (k : K) (v old : Option V) (mt : List (K × Option V))
    (hs : KSorted mt) (h : btLookup k mt = some old) :
    sumEntries ks vs (btInsert k v mt) + vs old = sumEntries ks vs mt + vs v := by
  induction mt with
  | nil => simp [btLookup] at h
  | cons p t ih =>
    obtain ⟨k1, v1⟩ := p
    by_cases h2 : k = k1
    · simp only [btLookup, if_pos h2] at h
      injection h with hold
      subst hold
      have h1 : ¬ k < k1 := h2 ▸ lt_irrefl k
      simp [btInsert, if_neg h1, if_pos h2, sumEntries, h2]
      omega
    · simp only [btLookup, if_neg h2] at h
      by_cases h1 : k < k1
      · have hmem := btLookup_some_mem k old t h
        have := (List.pairwise_cons.mp hs).1 (k, old) hmem
        exact absurd (lt_trans h1 this) (lt_irrefl _)
      · simp only [btInsert, if_neg h1, if_neg h2]
        simp only [sumEntries, List.map_cons, List.sum_cons] at *
        have := ih (List.pairwise_cons.mp hs).2 h
        omega

theorem lookup_some_le_sum {K V : Type} [LinearOrder K] (ks : K → Nat)
    (vs : Option V → Nat) (k : K) (old : Option V) (mt : List (K × Option V))
    (h : btLookup k mt = some old) : ks k + vs old ≤ sumEntries ks vs mt := by
  induction mt with
  | nil => simp [btLookup] at h
  | cons p t ih =>
    obtain ⟨k1, v1⟩ := p
    by_cases h2 : k = k1
    · simp only [btLookup, if_pos h2] at h
      injection h with hold
      subst hold
      simp [sumEntries, h2]
    · simp only [btLookup, if_neg h2] at h
      simp only [sumEntries, List.map_cons, List.sum_cons]
      have := ih h
      simp only [sumEntries] at this
      omega

theorem putsFold_size {K V : Type} [LinearOrder K] (ks : K → Nat)
    (vs : Option V → Nat) :
    ∀ (l : List (K × Option V)) (mt : List (K × Option V)) (extra : Nat),
      KSorted mt →
      (l.foldl (fun st kv => putStep ks vs st kv.1 kv.2)
        (mt, sumEntries ks vs mt + extra)).2 =
      sumEntries ks vs
        (l.foldl (fun st kv => putStep ks vs st kv.1 kv.2)
          (mt, sumEntries ks vs mt + extra)).1 + (extra + overHead ks mt l) := by
  intro l
  induction l with
  | nil => intro mt extra hs; simp [overHead]
  | cons kv t ih =>
    obtain ⟨k, v⟩ := kv
    intro mt extra hs
    simp only [List.foldl_cons]
    have hs2 : KSorted (btInsert k v mt) := btInsert_sorted k v mt hs
    cases hl : btLookup k mt with
    | none =>
      have hstep : putStep ks vs (mt, sumEntries ks vs mt + extra) k v =
          (btInsert k v mt, sumEntries ks vs (btInsert k v mt) + extra) := by
        unfold putStep
        rw [hl]
        dsimp only []
        rw [sumEntries_btInsert_none ks vs k v mt hl]
        simp
        omega
      rw [hstep]
      have := ih (btInsert k v mt) extra hs2
      rw [this]
      simp only [overHead, hl]
      omega
    | some old =>
      have hle := lookup_some_le_sum ks vs k old mt hl
      have heq := sumEntries_btInsert_some ks vs k v old mt hs hl
      have hstep : putStep ks vs (mt, sumEntries ks vs mt + extra) k v =
          (btInsert k v mt,
            sumEntries ks vs (btInsert k v mt) + (extra + ks k)) := by
        unfold putStep
        rw [hl]
        dsimp only []
        have : sumEntries ks vs mt + extra - vs old + ks k + vs v =
            sumEntries ks vs (btInsert k v mt) + (extra + ks k) := by
          omega
        rw [this]
      rw [hstep]
      have := ih (btInsert k v mt) (extra + ks k) hs2
      rw [this]
      simp only [overHead, hl]
      omega

/-! The claim theorems. -/

/-- C1: the spec says a get whose key misses the memtable and has no index
entry with key at most k returns None; the code instead panics, since the
cursor prev() result is unwrapped. After the two puts of the demo scenario
the memtable holds keys 1 and 2, the index is empty, and get 3 falls
through to the unwrap and fails instead of returning none. -/
theorem claim_C1 :
    (runPuts (fun k => (u64le k).length) (fun v => (serOV codecU64 v).length)
      [(1, some 10), (2, some 20)]).1 = [(1, some 10), (2, some 20)] ∧
    lsmGet [(1, (some 10 : Option Nat)), (2, some 20)] ([] : List (Nat × Nat))
      ([] : List (List (Nat × Option Nat))) 3 =
      .error "called Option.unwrap on a None value" := by
  constructor
  · decide
  · rfl

/-- C2: decode after encode is claimed to be the identity on pages built by
successful add_cell calls; on the one-cell u64 page the round trip doubles
num_cells (the decoder initialises num_cells from the header and then
increments it once more per decoded cell), so the result differs from the
original page. -/
theorem claim_C2 :
    add_cell codecU64 (SlottedPage.new codecU64) 1 (some 10) = .ok pageOneU64 ∧
    encode codecU64 pageOneU64 = .ok encBytesOne ∧
    decode decodersU64 encBytesOne =
      .ok { page_type := PageType.Fixed, num_cells := 2, cells := [(1, some 10)],
            space_left := 4071 } ∧
    ({ page_type := PageType.Fixed, num_cells := 2, cells := [(1, some 10)],
       space_left := 4071 } : SlottedPage Nat Nat) ≠ pageOneU64 := by
  refine ⟨add_cell_pageOne, encode_pageOne, decode_encBytesOne, ?_⟩
  decide

/-- C3: encoding a variable page is claimed to write key and value lengths
and bytes and to round-trip; in the code the 2-byte variable header is
copied into a 16-byte slot of the output, so encode fails on every
non-empty variable page (the copy panics) and no round trip exists. -/
theorem claim_C3 :
    add_cell codecStr (SlottedPage.new codecStr) [97] (some [98, 99]) =
      .ok pageVarOne ∧
    encode codecStr pageVarOne = .error "copy slice mismatch" :=
  ⟨add_cell_pageVarOne, encode_pageVarOne_panics⟩

/-- C4: merge with an empty memtable and a non-empty run is claimed to
complete and emit the remainder of the run; the code unwraps the first
memtable entry before checking for exhaustion, so this merge panics. -/
theorem claim_C4 :
    mergeModel ([] : List (Nat × Option Nat)) [[(1, some 10)]] =
      .error "called Option.unwrap on a None value" ∧
    flattenPages [[(1, (some 10 : Option Nat))]] ≠ [] := by
  exact ⟨rfl, by decide⟩

/-- C5 (amended): build_index inserts one entry per page of the non-empty
page prefix, mapping the page's first key to its byte offset, and when the
page minima are sorted each such key looks up to its page offset; but the
index is never cleared, so any pre-existing binding at a key that is not a
page minimum survives the rebuild unchanged. -/
theorem claim_C5 {K V : Type} [LinearOrder K] (idx : List (K × Nat))
    (pages : List (List (K × Option V)))
    (hs : KSorted (pageMins pages 0)) :
    (∀ k off, (k, off) ∈ pageMins pages 0 →
      btLookup k (build_index idx pages) = some off) ∧
    (∀ k, (∀ q ∈ pageMins pages 0, q.1 ≠ k) →
      btLookup k (build_index idx pages) = btLookup k idx) := by
  have hb : build_index idx pages = insFold idx (pageMins pages 0) := by
    unfold build_index
    exact buildIndexLoop_spec pages idx 0
  constructor
  · intro k off hm
    rw [hb, btLookup_insFold]
    rw [lastLookup_of_mem k off (pageMins pages 0) hs hm]
  · intro k hk
    rw [hb, btLookup_insFold]
    rw [lastLookup_eq_none k (pageMins pages 0) hk]

/-- C5 witness: two one-cell pages and a stale index entry at key 9; the
page minima 1 and 4 look up to offsets 0 and 4096 and key 9 keeps its old
binding. -/
theorem claim_C5_witness :
    btLookup 1 (build_index [(9, 7)]
      [[(1, (some 1 : Option Nat))], [(4, some 4)]]) = some 0 ∧
    btLookup 4 (build_index [(9, 7)]
      [[(1, (some 1 : Option Nat))], [(4, some 4)]]) = some 4096 ∧
    btLookup 9 (build_index [(9, 7)]
      [[(1, (some 1 : Option Nat))], [(4, some 4)]]) = btLookup 9 [(9, 7)] := by
  obtain ⟨h1, h2⟩ := claim_C5 [(9, 7)] [[(1, (some 1 : Option Nat))], [(4, some 4)]]
    (by decide)
  exact ⟨h1 1 0 (by decide), h1 4 4096 (by decide), h2 9 (by decide)⟩

/-- C5 counterexample to the original claim: after rebuilding over a single
page whose first key is 3, the index still holds the old entry at key 5, so
it does not have exactly one entry per page. -/
theorem claim_C5_cex :
    build_index [(5, 7)] [[(3, (some 30 : Option Nat))]] = [(3, 0), (5, 7)] ∧
    (5, 7) ∈ build_index [(5, 7)] [[(3, (some 30 : Option Nat))]] ∧
    (build_index [(5, 7)] [[(3, (some 30 : Option Nat))]]).length ≠ 1 := by
  decide

/-- C8 (amended): after any put sequence on a fresh table, memtable_size
equals the sum of serialized entry sizes plus one leaked serialized key
size for every put that overwrote an existing key (the update path
subtracts only the old value's serialized size, never the key's). -/
theorem claim_C8 {K V : Type} [LinearOrder K] (ks : K → Nat)
    (vs : Option V → Nat) (l : List (K × Option V)) :
    (runPuts ks vs l).2 =
      sumEntries ks vs (runPuts ks vs l).1 + overHead ks [] l := by
  have h := putsFold_size ks vs l [] 0 List.Pairwise.nil
  simpa [runPuts, sumEntries] using h

/-- C8 counterexample to the original claim: putting key 1 twice under the
u64 bincode sizes leaves memtable_size at 25 while the memtable entries
serialize to 17 bytes; the 8-byte key contribution of the overwritten
entry is never subtracted. -/
theorem claim_C8_cex :
    (runPuts (fun k => (u64le k).length) (fun v => (serOV codecU64 v).length)
      [(1, some 10), (1, some 20)]).2 = 25 ∧
    sumEntries (fun k => (u64le k).length) (fun v => (serOV codecU64 v).length)
      (runPuts (fun k => (u64le k).length) (fun v => (serOV codecU64 v).length)
        [(1, some 10), (1, some 20)]).1 = 17 ∧
    (25 : Nat) ≠ 17 := by
  decide

/-- C6 (confirmed): when a key is present in both the memtable snapshot
and the run, merge succeeds and the merged map carries the memtable value,
which also survives the packing into pages of the new run. -/
theorem claim_C6 {K V : Type} [LinearOrder K] (c : Codec K V)
    (mem : List (K × Option V)) (pages : List (List (K × Option V)))
    (k : K) (vm : Option V)
    (hsm : KSorted mem) (hsd : KSorted (flattenPages pages))
    (hmem : btLookup k mem = some vm)
    (hdisk : ∃ vd, btLookup k (flattenPages pages) = some vd) :
    ∃ r, mergeModel mem pages = .ok r ∧ btLookup k r = some vm ∧
      ∀ out, packPages c r = .ok out → btLookup k out.join = some vm := by
  obtain ⟨vd, hvd⟩ := hdisk
  cases hg : getNextDisk (none : Option (List (K × Option V))) pages with
  | none =>
    rw [gnd_init_none pages hg] at hvd
    simp [btLookup] at hvd
  | some t =>
    obtain ⟨cd, it, ps2⟩ := t
    have hflat := gnd_init_some pages cd it ps2 hg
    cases mem with
    | nil => simp [btLookup] at hmem
    | cons cm ms =>
      have hml := mergeLoop_spec cm ms cd it ps2 [] false false
      simp only [if_neg (Bool.false_ne_true)] at hml
      rw [← hflat] at hml
      have hLsort : KSorted (stdMerge (cm :: ms) (flattenPages pages)) :=
        stdMerge_sorted (cm :: ms) (flattenPages pages) hsm hsd
      have hmemL : (k, vm) ∈ stdMerge (cm :: ms) (flattenPages pages) :=
        stdMerge_lookup_mem (cm :: ms) (flattenPages pages) k vm hmem
      have hfold : insFold ([] : List (K × Option V))
          (stdMerge (cm :: ms) (flattenPages pages)) =
          stdMerge (cm :: ms) (flattenPages pages) := by
        have := insFold_self ([] : List (K × Option V))
          (stdMerge (cm :: ms) (flattenPages pages)) (by simpa using hLsort)
        simpa using this
      have hlook : btLookup k (stdMerge (cm :: ms) (flattenPages pages)) = some vm :=
        btLookup_of_mem k vm _ hLsort hmemL
      refine ⟨stdMerge (cm :: ms) (flattenPages pages), ?_, hlook, ?_⟩
      · unfold mergeModel
        rw [hg]
        dsimp only []
        rw [hml, hfold]
      · intro out hout
        have hj := packLoop_join c (stdMerge (cm :: ms) (flattenPages pages))
          (SlottedPage.new c) [] out (by simpa [SlottedPage.new] using hLsort)
          rfl hout
        simp only [List.join_nil, List.nil_append] at hj
        rw [hj]
        simpa [SlottedPage.new] using hlook

/-- C6 witness: key 1 maps to 5 in the memtable and to 9 on disk; the
merged map keeps 5 and any successful packing of it keeps 5 too. -/
theorem claim_C6_witness :
    ∃ r, mergeModel [(1, (some 5 : Option Nat))] [[(1, some 9), (2, some 7)]] =
        .ok r ∧ btLookup 1 r = some (some 5) ∧
      ∀ out, packPages codecU64 r = .ok out →
        btLookup 1 out.join = some (some 5) :=
  claim_C6 codecU64 [(1, (some 5 : Option Nat))] [[(1, some 9), (2, some 7)]]
    1 (some 5) (by decide) (by decide) (by decide) ⟨some 9, by decide⟩

/-- C7 (amended): get returns ok none exactly when the aligned block is
neither resident nor within the opened file's length; a resident block is
returned and promoted even when it lies past end of file, and a
non-resident in-bounds block is read from disk and inserted in front. -/
theorem claim_C7 (bm : BufferManager) (fs : FS) (file : String) (offset : Nat) :
    ((∃ bm2 fs2, BufferManager.get bm fs file offset = .ok (none, bm2, fs2)) ↔
      (residentIdx bm file (alignDown offset) = none ∧
        alignDown offset + BLOCK_SIZE > fileLenAfterOpen fs file)) ∧
    (∀ i, residentIdx bm file (alignDown offset) = some i →
      ∃ b, bm.blocks.get? i = some b ∧
        BufferManager.get bm fs file offset =
          .ok (some b, ⟨bm.num_blocks, b :: bm.blocks.eraseIdx i⟩, fs)) ∧
    (residentIdx bm file (alignDown offset) = none →
      alignDown offset + BLOCK_SIZE ≤ fileLenAfterOpen fs file →
      ∀ ob bm2 fs2, BufferManager.get bm fs file offset = .ok (ob, bm2, fs2) →
        ob = some (readBlockOf fs file offset) ∧
        bm2.blocks.head? = some (readBlockOf fs file offset) ∧
        bm2.num_blocks = bm.num_blocks) := by
  refine ⟨get_none_iff bm fs file offset, ?_, ?_⟩
  · intro i hi
    exact get_hit bm fs file offset i hi
  · intro h1 h2 ob bm2 fs2 hg
    exact get_miss_read bm fs file offset h1 h2 ob bm2 fs2 hg

/-- C7 witness: a pool holding the block of file f at offset 0 while f is
empty on disk; the resident branch of the claim returns that block. -/
theorem claim_C7_witness :
    ∃ b, (BufferManager.mk 1 [Block.mk [7] ("f", 0) true]).blocks.get? 0 =
        some b ∧
      BufferManager.get (BufferManager.mk 1 [Block.mk [7] ("f", 0) true])
        [("f", [])] "f" 0 =
      .ok (some b, ⟨(BufferManager.mk 1 [Block.mk [7] ("f", 0) true]).num_blocks,
        b :: (BufferManager.mk 1 [Block.mk [7] ("f", 0) true]).blocks.eraseIdx 0⟩,
        [("f", [])]) :=
  (claim_C7 (BufferManager.mk 1 [Block.mk [7] ("f", 0) true])
    [("f", [])] "f" 0).2.1 0 (by decide)

/-- C7 counterexample to the original claim: the aligned block 0 of the
empty file f lies past end of file, yet get returns the resident block
rather than none. -/
theorem claim_C7_cex :
    alignDown 0 + BLOCK_SIZE > fileLenAfterOpen [("f", [])] "f" ∧
    BufferManager.get (BufferManager.mk 1 [Block.mk [7] ("f", 0) true])
      [("f", [])] "f" 0 =
      .ok (some (Block.mk [7] ("f", 0) true),
        BufferManager.mk 1 [Block.mk [7] ("f", 0) true], [("f", [])]) := by
  decide

/-- C9 (confirmed): an accepted add_cell on a page already holding the key
replaces the map entry, leaving a single binding and the map size
unchanged, while num_cells and the space charge still grow. -/
theorem claim_C9 {K V : Type} [LinearOrder K] (c : Codec K V)
    (s : SlottedPage K V) (k : K) (v : Option V)
    (hcost : cellCost c s.page_type k v ≤ s.space_left)
    (hs : KSorted s.cells) (hmem : ∃ w, btLookup k s.cells = some w) :
    ∃ s2, add_cell c s k v = .ok s2 ∧
      s2.cells = btInsert k v s.cells ∧
      btLookup k s2.cells = some v ∧
      keyCount k s2.cells = 1 ∧
      s2.cells.length = s.cells.length ∧
      s2.num_cells = s.num_cells + 1 ∧
      s2.space_left = s.space_left - cellCost c s.page_type k v := by
  refine ⟨_, add_cell_ok c s k v hcost, rfl, ?_, ?_, ?_, rfl, rfl⟩
  · rw [btLookup_btInsert]
    simp
  · exact btInsert_keyCount k v s.cells hs
  · exact btInsert_length_of_mem k v s.cells hs hmem

/-- C9 witness: re-adding key 1 to the one-cell u64 page keeps one map
entry of unchanged size while num_cells reaches 2. -/
theorem claim_C9_witness :
    ∃ s2, add_cell codecU64 pageOneU64 1 (some 20) = .ok s2 ∧
      s2.cells = btInsert 1 (some 20) pageOneU64.cells ∧
      btLookup 1 s2.cells = some (some 20) ∧
      keyCount 1 s2.cells = 1 ∧
      s2.cells.length = pageOneU64.cells.length ∧
      s2.num_cells = pageOneU64.num_cells + 1 ∧
      s2.space_left = pageOneU64.space_left -
        cellCost codecU64 pageOneU64.page_type 1 (some 20) :=
  claim_C9 codecU64 pageOneU64 1 (some 20) (by decide) (by decide)
    ⟨some 10, by decide⟩

/-- C10 (amended): a write whose aligned block is neither resident nor
within the file inserts a fresh dirty block with exactly the given bytes at
the front of the pool; the file exists on disk afterwards at every aligned
offset, because the get called first opens it with create, not only at
offset 0. -/
theorem claim_C10 (bm : BufferManager) (fs : FS) (file : String)
    (offset : Nat) (buf : List Nat) (bs : Nat) (bm2 : BufferManager) (fs2 : FS)
    (hidx : residentIdx bm file (alignDown offset) = none)
    (hpast : alignDown offset + BLOCK_SIZE > fileLenAfterOpen fs file)
    (hok : BufferManager.write bm fs file offset buf bs = .ok (bm2, fs2)) :
    (∃ rest, bm2.blocks = Block.mk buf (file, alignDown offset) true :: rest) ∧
      fsFind fs2 file ≠ none ∧ bm2.num_blocks = bm.num_blocks :=
  write_miss_past bm fs file offset buf bs bm2 fs2 hidx hpast hok

/-- C10 witness: writing two bytes of file g at the non-zero aligned
offset 4096 into an empty pool over an empty filesystem inserts the dirty
block and leaves g present on disk. -/
theorem claim_C10_witness :
    (∃ rest, (BufferManager.mk 2 [Block.mk [5, 5] ("g", 4096) true]).blocks =
      Block.mk [5, 5] ("g", alignDown 4096) true :: rest) ∧
    fsFind [("g", [])] "g" ≠ none ∧
    (BufferManager.mk 2 [Block.mk [5, 5] ("g", 4096) true]).num_blocks =
      (BufferManager.mk 2 []).num_blocks :=
  claim_C10 (BufferManager.mk 2 []) [] "g" 4096 [5, 5] 2
    (BufferManager.mk 2 [Block.mk [5, 5] ("g", 4096) true]) [("g", [])]
    (by decide) (by decide) (by decide)

/-- C10 counterexample to the original claim: the write at aligned offset
4096 on a missing file still creates it on disk, against the claim that
creation happens only at aligned offset 0. -/
theorem claim_C10_cex :
    alignDown 4096 ≠ 0 ∧
    BufferManager.write (BufferManager.mk 2 []) [] "g" 4096 [5, 5] 2 =
      .ok (BufferManager.mk 2 [Block.mk [5, 5] ("g", 4096) true], [("g", [])]) ∧
    fsFind [("g", [])] "g" = some [] := by
  decide
